import Mathlib

/-!
# Namespace store over the bolt handler (store/boltdbStore/namespace.go)

A shallow embedding of the namespace store: the entity, the key-value handler
the store delegates to, and the seven store operations. Go tuples are kept as
tuples: `(*Namespace, error)` becomes `Option Namespace × Option Error`, where
`none` stands for `nil`. Operations that mutate the handler return the new
store next to the Go result. `time.Now()` is an explicit clock argument.
-/

namespace BoltdbStore

/-! ## Data model -/

/-- An instant of `time.Time`, as a signed count of nanoseconds. -/
abbrev Time := Int

/-- The method `t.Before(u)` of `time.Time`. -/
def Time.Before (t u : Time) : Bool := decide (t < u)

/-- The method `t.After(u)` of `time.Time`. -/
def Time.After (t u : Time) : Bool := decide (u < t)

/-- Modelled from the spec: the entity `model.Namespace` is declared in
`common/model`, outside the store source; its fields are those of spec §3.
Every field defaults to the Go zero value. -/
structure Namespace where
  Name : String := ""
  Comment : String := ""
  Token : String := ""
  Owner : String := ""
  Valid : Bool := false
  CreateTime : Time := 0
  ModifyTime : Time := 0
deriving DecidableEq

/-- A dynamically typed field value (`interface{}`) as it occurs in a property mapping. -/
inductive Value where
  | str (s : String)
  | bool (b : Bool)
  | time (t : Time)
deriving DecidableEq

/-- A property mapping `map[string]interface{}`: field name to value, keys unique. -/
abbrev Properties := AList (fun _ : String => Value)

/-- One table of the handler: storage key to decoded entity, keys unique.
It is also the shape of the `map[string]interface{}` the load calls return. -/
abbrev Table := AList (fun _ : String => Namespace)

/-- The Go `error` values of this layer: the ones the store creates itself with
`errors.New` / `fmt.Errorf`, and the ones handed up from the handler. -/
inductive Error where
  | validation (msg : String)
  | storage (code : Nat)
deriving DecidableEq

/-! ## The handler -/

/-- A mutating call received by the handler, with its arguments. -/
inductive HandlerCall where
  | SaveValue (typ key : String) (value : Namespace)
  | UpdateValue (typ key : String) (properties : Properties)

/-- Modelled from the spec: the interface `BoltHandler` and its implementation
live outside the store source; the state follows spec §1 and §6: a
table-oriented object store. `tables` gives the content of each table,
`fault` is the storage failure (if any) the next call runs into, and `writes`
records the mutating calls received so far, oldest first. -/
structure BoltHandler where
  tables : String → Table
  fault : Option Nat
  writes : List HandlerCall

/-- The value a record holds for a field name, if the entity has such a field. -/
def Namespace.field (ns : Namespace) (name : String) : Option Value :=
  if name = "Name" then some (Value.str ns.Name)
  else if name = "Comment" then some (Value.str ns.Comment)
  else if name = "Token" then some (Value.str ns.Token)
  else if name = "Owner" then some (Value.str ns.Owner)
  else if name = "Valid" then some (Value.bool ns.Valid)
  else if name = "CreateTime" then some (Value.time ns.CreateTime)
  else if name = "ModifyTime" then some (Value.time ns.ModifyTime)
  else none

/-- The string a patch carries for a field, or the old value when the patch does not name it. -/
def patchStr (properties : Properties) (name : String) (old : String) : String :=
  match properties.lookup name with
  | some (Value.str s) => s
  | _ => old

/-- The flag a patch carries for a field, or the old value when the patch does not name it. -/
def patchBool (properties : Properties) (name : String) (old : Bool) : Bool :=
  match properties.lookup name with
  | some (Value.bool b) => b
  | _ => old

/-- The instant a patch carries for a field, or the old value when the patch does not name it. -/
def patchTime (properties : Properties) (name : String) (old : Time) : Time :=
  match properties.lookup name with
  | some (Value.time t) => t
  | _ => old

/-- Modelled from the spec: the effect of a partial-field patch on one record
(spec §6, `UpdateValue`: "apply partial-field patch in place; unspecified
fields untouched"). -/
def Namespace.patch (ns : Namespace) (properties : Properties) : Namespace :=
  { Name := patchStr properties "Name" ns.Name
    Comment := patchStr properties "Comment" ns.Comment
    Token := patchStr properties "Token" ns.Token
    Owner := patchStr properties "Owner" ns.Owner
    Valid := patchBool properties "Valid" ns.Valid
    CreateTime := patchTime properties "CreateTime" ns.CreateTime
    ModifyTime := patchTime properties "ModifyTime" ns.ModifyTime }

/-- Modelled from the spec: `SaveValue(table, key, entity)` of the handler,
which is outside the store source (spec §6: "upsert full keyed record; fails
only on I/O/encoding error"). A failing call leaves every table as it was. -/
def BoltHandler.SaveValue (h : BoltHandler) (typ key : String) (value : Namespace) :
    BoltHandler × Option Error :=
  let h1 : BoltHandler :=
    { tables := h.tables, fault := h.fault,
      writes := h.writes ++ [HandlerCall.SaveValue typ key value] }
  match h.fault with
  | some e => (h1, some (Error.storage e))
  | none =>
    ({ tables := Function.update h1.tables typ ((h1.tables typ).insert key value),
       fault := h1.fault, writes := h1.writes }, none)

/-- Modelled from the spec: `UpdateValue(table, key, fields)` of the handler,
which is outside the store source (spec §6: "apply partial-field patch in
place; unspecified fields untouched"). For a key without a record the call
does nothing and reports no error (spec §4.2 leaves this case to the handler). -/
def BoltHandler.UpdateValue (h : BoltHandler) (typ key : String) (properties : Properties) :
    BoltHandler × Option Error :=
  let h1 : BoltHandler :=
    { tables := h.tables, fault := h.fault,
      writes := h.writes ++ [HandlerCall.UpdateValue typ key properties] }
  match h.fault with
  | some e => (h1, some (Error.storage e))
  | none =>
    match (h1.tables typ).lookup key with
    | none => (h1, none)
    | some old =>
      ({ tables := Function.update h1.tables typ ((h1.tables typ).insert key (old.patch properties)),
         fault := h1.fault, writes := h1.writes }, none)

/-- Modelled from the spec: `LoadValues(table, keys, prototype)` of the handler,
which is outside the store source (spec §6: "batch point lookup; mapping key to
decoded entity; missing keys simply absent from result, not an error"). -/
def BoltHandler.LoadValues (h : BoltHandler) (typ : String) (keys : List String) :
    Table × Option Error :=
  match h.fault with
  | some e => (∅, some (Error.storage e))
  | none =>
    (keys.foldr
      (fun k acc =>
        match (h.tables typ).lookup k with
        | some v => acc.insert k v
        | none => acc)
      ∅, none)

/-- The raw field mapping of a record restricted to the watched fields. -/
def rawFields (fields : List String) (ns : Namespace) : Properties :=
  fields.foldr
    (fun f acc =>
      match ns.field f with
      | some v => acc.insert f v
      | none => acc)
    ∅

/-- The records of a table that satisfy a test, under their keys. -/
def Table.select (t : Table) (p : Namespace → Bool) : Table :=
  ⟨t.entries.filter (fun e => p e.2), t.nodupKeys.sublist (List.filter_sublist _)⟩

/-- Modelled from the spec: `LoadValuesByFilter(table, watchedFields, prototype,
predicate)` of the handler, which is outside the store source (spec §6: "full
scan, decode each record, invoke predicate(rawFieldMapping); include if true").
A predicate answers `none` when it panics; the panic then ends the call, which
is the outer `none`. -/
def BoltHandler.LoadValuesByFilter (h : BoltHandler) (typ : String) (fields : List String)
    (predicate : Properties → Option Bool) : Option (Table × Option Error) :=
  match h.fault with
  | some e => some (∅, some (Error.storage e))
  | none =>
    if (h.tables typ).entries.all (fun e => (predicate (rawFields fields e.2)).isSome) then
      some ((h.tables typ).select (fun ns => predicate (rawFields fields ns) == some true), none)
    else
      none

/-- Modelled from the spec: `LoadValuesAll(table, prototype)` of the handler,
which is outside the store source (spec §6: "full scan, decode every record"). -/
def BoltHandler.LoadValuesAll (h : BoltHandler) (typ : String) : Table × Option Error :=
  match h.fault with
  | some e => (∅, some (Error.storage e))
  | none => (h.tables typ, none)

/-! ## The store (namespace.go) -/

/-- The constant `tblNameNamespace`. -/
def tblNameNamespace : String := "namespace"

/-- The struct `namespaceStore`. -/
structure namespaceStore where
  handler : BoltHandler

/-- `AddNamespace`: validate the three required fields, then a full keyed write. -/
def namespaceStore.AddNamespace (n : namespaceStore) (ns : Namespace) :
    namespaceStore × Option Error :=
  if ns.Name = "" ∨ ns.Owner = "" ∨ ns.Token = "" then
    (n, some (Error.validation "store add namespace some param are empty"))
  else
    let r := n.handler.SaveValue tblNameNamespace ns.Name ns
    ({ handler := r.1 }, r.2)

/-- `UpdateNamespace`: validate, build the Owner/Comment/ModifyTime mapping, patch.
The argument `now` is the reading of `time.Now()`. -/
def namespaceStore.UpdateNamespace (n : namespaceStore) (ns : Namespace) (now : Time) :
    namespaceStore × Option Error :=
  if ns.Name = "" ∨ ns.Owner = "" then
    (n, some (Error.validation "store update namespace some param are empty"))
  else
    let properties : Properties := ∅
    let properties := properties.insert "Owner" (Value.str ns.Owner)
    let properties := properties.insert "Comment" (Value.str ns.Comment)
    let properties := properties.insert "ModifyTime" (Value.time now)
    let r := n.handler.UpdateValue tblNameNamespace ns.Name properties
    ({ handler := r.1 }, r.2)

/-- `UpdateNamespaceToken`: validate, build the Token/ModifyTime mapping, patch.
The argument `now` is the reading of `time.Now()`. -/
def namespaceStore.UpdateNamespaceToken (n : namespaceStore) (name token : String) (now : Time) :
    namespaceStore × Option Error :=
  if name = "" ∨ token = "" then
    (n, some (Error.validation "Update Namespace Token missing some params"))
  else
    let properties : Properties := ∅
    let properties := properties.insert "Token" (Value.str token)
    let properties := properties.insert "ModifyTime" (Value.time now)
    let r := n.handler.UpdateValue tblNameNamespace name properties
    ({ handler := r.1 }, r.2)

/-- `strings.Contains(s, substr)`: `substr` occurs within `s`. -/
def strings.Contains (s substr : String) : Bool := decide (substr.data <:+: s.data)

/-- `toNamespaces`: the entities of a result mapping, in iteration order. Go leaves
the iteration order of a map open; here it is the order of the entries. -/
def toNamespaces (values : Table) : List Namespace :=
  values.entries.map (fun e => e.2)

/-- `ListNamespaces`: scan with the predicate "Owner contains owner". The outer
`none` is a run-time panic (the type assertion `ownerValue.(string)`). -/
def namespaceStore.ListNamespaces (n : namespaceStore) (owner : String) :
    Option (List Namespace × Option Error) :=
  if owner = "" then
    some ([], some (Error.validation "store lst namespaces owner is empty"))
  else
    match n.handler.LoadValuesByFilter tblNameNamespace ["Owner"]
        (fun value =>
          match value.lookup "Owner" with
          | none => some false
          | some (Value.str ownerValue) => some (strings.Contains ownerValue owner)
          | some _ => none) with
    | none => none
    | some (_, some err) => some ([], some err)
    | some (values, none) => some (toNamespaces values, none)

/-- `GetNamespace`: point lookup; absent and invalid both give `(nil, nil)`. -/
def namespaceStore.GetNamespace (n : namespaceStore) (name : String) :
    Option Namespace × Option Error :=
  match n.handler.LoadValues tblNameNamespace [name] with
  | (_, some err) => (none, some err)
  | (values, none) =>
    match values.lookup name with
    | none => (none, none)
    | some ns => if !ns.Valid then (none, none) else (some ns, none)

/-- `NamespaceSlice.Less`, on the two elements the indices select. -/
def NamespaceSlice.Less (a b : Namespace) : Bool :=
  Time.Before a.ModifyTime b.ModifyTime

/-- `sort.Reverse`: the ordering whose `Less` is the given one with its arguments exchanged. -/
def sort.Reverse {α : Type} (less : α → α → Bool) : α → α → Bool :=
  fun a b => less b a

/-- `sort.Sort`: arranges the data so that no element is `less` than one before it.
The library promises no more than that (the sort is not stable); the
arrangement computed here is the one of insertion sort. -/
def sort.Sort {α : Type} (less : α → α → Bool) (data : List α) : List α :=
  data.insertionSort (fun a b => less b a = false)

/-- The value of an `int` result after wrap-around (64-bit two's complement). -/
def wrapInt (x : Int) : Int := (x + 2 ^ 63) % 2 ^ 64 - 2 ^ 63

/-- The slice expression `s[lo:hi]` on a slice whose capacity equals its length;
`none` is the run-time panic for indices out of range. -/
def sliceExpr {α : Type} (s : List α) (lo hi : Int) : Option (List α) :=
  if 0 ≤ lo ∧ lo ≤ hi ∧ hi ≤ (s.length : Int) then
    some ((s.drop lo.toNat).take (hi.toNat - lo.toNat))
  else
    none

/-- `GetNamespaces`: load the whole table, sort by ModifyTime descending, cut the
page. The result is `(page, count, error)`; the outer `none` is a run-time panic
of the slice expression. -/
def namespaceStore.GetNamespaces (n : namespaceStore)
    (_filter : AList (fun _ : String => List String)) (offset limit : Int) :
    Option (List Namespace × Nat × Option Error) :=
  match n.handler.LoadValuesAll tblNameNamespace with
  | (_, some err) => some ([], 0, some err)
  | (values, none) =>
    let namespaces := sort.Sort (sort.Reverse NamespaceSlice.Less) (toNamespaces values)
    let startIdx := wrapInt (offset * limit)
    if startIdx ≥ (namespaces.length : Int) then
      some ([], 0, none)
    else
      let endIdx := wrapInt (startIdx + limit)
      let endIdx := if endIdx > (namespaces.length : Int) then (namespaces.length : Int) else endIdx
      match sliceExpr namespaces startIdx endIdx with
      | none => none
      | some page => some (page, 0, none)

/-- `GetMoreNamespaces`: scan with the predicate "ModifyTime after mtime". The outer
`none` is a run-time panic (the type assertion `mTimeValue.(time.Time)`). -/
def namespaceStore.GetMoreNamespaces (n : namespaceStore) (mtime : Time) :
    Option (List Namespace × Option Error) :=
  match n.handler.LoadValuesByFilter tblNameNamespace ["ModifyTime"]
      (fun value =>
        match value.lookup "ModifyTime" with
        | none => some false
        | some (Value.time mTimeValue) => some (Time.After mTimeValue mtime)
        | some _ => none) with
  | none => none
  | some (_, some err) => some ([], some err)
  | some (values, none) => some (toNamespaces values, none)

/-- The cursor a sync consumer derives from a result, in the spec's words "the
maximum `ModifyTime` from the previous result" (spec §4.2, §8); 0 for an empty result. -/
def maxModifyTime : List Namespace → Time
  | [] => 0
  | r :: rs => rs.foldl (fun m x => max m x.ModifyTime) r.ModifyTime

/-- The index `startIdx := offset * limit` of `GetNamespaces`. -/
def startIdx (offset limit : Int) : Int := wrapInt (offset * limit)

/-- The index `endIdx` of `GetNamespaces` as it enters the slice expression:
`startIdx + limit`, replaced by `len` when it exceeds `len`. -/
def endIdx (len offset limit : Int) : Int :=
  let endIdx := wrapInt (startIdx offset limit + limit)
  if endIdx > len then len else endIdx

/-- One of the three mutating operations of the store with its arguments; for the two
updates the last argument is the clock reading of the call. -/
inductive Op where
  | AddNamespace (ns : Namespace)
  | UpdateNamespace (ns : Namespace) (now : Time)
  | UpdateNamespaceToken (name token : String) (now : Time)

/-- A call of a mutating operation together with the storage failure (if any) its
handler call runs into. -/
structure Call where
  op : Op
  fault : Option Nat

/-- The store and the Go result of one call. -/
def namespaceStore.call (n : namespaceStore) (c : Call) : namespaceStore × Option Error :=
  let n1 : namespaceStore :=
    { handler := { tables := n.handler.tables, fault := c.fault, writes := n.handler.writes } }
  match c.op with
  | Op.AddNamespace ns => n1.AddNamespace ns
  | Op.UpdateNamespace ns now => n1.UpdateNamespace ns now
  | Op.UpdateNamespaceToken name token now => n1.UpdateNamespaceToken name token now

/-- The store after a sequence of calls, accepted or rejected, oldest first. -/
def namespaceStore.run (n : namespaceStore) (calls : List Call) : namespaceStore :=
  calls.foldl (fun s c => (s.call c).1) n


/-- The `ModifyTime` a mutating operation writes into the record: the clock reading
for the two updates, the entity's own `ModifyTime` for `AddNamespace`. -/
def Op.written : Op → Time
  | Op.AddNamespace ns => ns.ModifyTime
  | Op.UpdateNamespace _ now => now
  | Op.UpdateNamespaceToken _ _ now => now


/-- Lines 128 to 136 of `GetNamespaces`: the page the call cuts from the slice
`namespaces` it has just sorted. The slice is an argument here because the call
builds it anew each time, from a map iteration and an unstable sort whose
outcome Go leaves open. -/
def GetNamespaces.page (namespaces : List Namespace) (offset limit : Int) :
    Option (List Namespace × Nat × Option Error) :=
  let startIdx := wrapInt (offset * limit)
  if startIdx ≥ (namespaces.length : Int) then
    some ([], 0, none)
  else
    let endIdx := wrapInt (startIdx + limit)
    let endIdx := if endIdx > (namespaces.length : Int) then (namespaces.length : Int) else endIdx
    match sliceExpr namespaces startIdx endIdx with
    | none => none
    | some page => some (page, 0, none)


/-! ## Sample data -/

/-- A stored, valid record under key "ns1". -/
def sampleRecord : Namespace :=
  { Name := "ns1", Comment := "first", Token := "t1", Owner := "teamA", Valid := true,
    CreateTime := 5, ModifyTime := 10 }

/-- A handler whose table "namespace" holds `sampleRecord` and nothing else, with no failure pending. -/
def sampleStore : namespaceStore :=
  { handler :=
      { tables := fun typ => if typ = "namespace" then AList.singleton "ns1" sampleRecord else ∅
        fault := none
        writes := [] } }

/-- An update request for "ns1": new owner and comment, no token. -/
def sampleUpdate : Namespace :=
  { Name := "ns1", Owner := "teamB", Comment := "c" }

/-- The entity of the spec scenario: Name, Owner and Token only, the rest at its default. -/
def sampleNew : Namespace :=
  { Name := "ns1", Owner := "teamA", Token := "t1" }

/-- The same entity with the Valid flag set by the caller. -/
def sampleNewValid : Namespace :=
  { Name := "ns1", Owner := "teamA", Token := "t1", Valid := true }

/-- A second entity under the name "ns1". -/
def sampleNewer : Namespace :=
  { Name := "ns1", Owner := "teamC", Token := "t9", Comment := "again", Valid := true,
    CreateTime := 40, ModifyTime := 41 }

/-- A handler with no record in any table and no failure pending. -/
def emptyStore : namespaceStore :=
  { handler := { tables := fun _ => ∅, fault := none, writes := [] } }

/-- The store of `sampleStore` with the storage failure 7 pending. -/
def failingStore : namespaceStore :=
  { handler :=
      { tables := fun typ => if typ = "namespace" then AList.singleton "ns1" sampleRecord else ∅
        fault := some 7
        writes := [] } }


/-- A stored record that is marked deleted. -/
def deletedRecord : Namespace :=
  { Name := "ns2", Comment := "gone", Token := "t2", Owner := "teamA", Valid := false,
    CreateTime := 3, ModifyTime := 8 }

/-- A handler whose table "namespace" holds `deletedRecord` under "ns2" and nothing else. -/
def deletedStore : namespaceStore :=
  { handler :=
      { tables := fun typ => if typ = "namespace" then AList.singleton "ns2" deletedRecord else ∅
        fault := none
        writes := [] } }


/-- A history on an empty table: a creation, an update at clock reading 20, a token
rotation at clock reading 30, and a rejected creation (empty name). -/
def sampleCalls : List Call :=
  [ { op := Op.AddNamespace sampleNewValid, fault := none },
    { op := Op.UpdateNamespace sampleUpdate 20, fault := none },
    { op := Op.UpdateNamespaceToken "ns1" "t2" 30, fault := none },
    { op := Op.AddNamespace { Owner := "teamZ", Token := "t0" }, fault := none } ]

/-- A history with non-decreasing clock readings 10, 20, 30 in which the last call is
a creation under the existing name: the entity of the spec scenario, whose
`ModifyTime` is the zero value. -/
def regressingCalls : List Call :=
  [ { op := Op.AddNamespace
        { Name := "ns1", Owner := "teamA", Token := "t1", Valid := true, CreateTime := 10,
          ModifyTime := 10 },
      fault := none },
    { op := Op.UpdateNamespace sampleUpdate 20, fault := none },
    { op := Op.AddNamespace sampleNew, fault := none } ]


/-- A handler whose table "namespace" holds three valid records, modified at 10, 30 and 20. -/
def pagedStore : namespaceStore :=
  { handler :=
      { tables := fun typ =>
          if typ = "namespace" then
            ((AList.singleton "a"
                { Name := "a", Token := "ta", Owner := "teamA", Valid := true, ModifyTime := 10 }
              ).insert "b"
                { Name := "b", Token := "tb", Owner := "teamB", Valid := true, ModifyTime := 30 }
              ).insert "c"
                { Name := "c", Token := "tc", Owner := "teamC", Valid := true, ModifyTime := 20 }
          else ∅
        fault := none
        writes := [] } }


/-- A history with clock readings 10, 20, 30 whose creation carries its clock reading
as `ModifyTime`. -/
def stampedCalls : List Call :=
  [ { op := Op.AddNamespace
        { Name := "ns1", Owner := "teamA", Token := "t1", Valid := true, CreateTime := 10,
          ModifyTime := 10 },
      fault := none },
    { op := Op.UpdateNamespace sampleUpdate 20, fault := none },
    { op := Op.UpdateNamespaceToken "ns1" "t2" 30, fault := none } ]


/-- A `ModifyTime`-descending arrangement of three records in which the first two tie. -/
def tiedArrangement : List Namespace :=
  [ { Name := "x", Token := "tx", Owner := "teamX", Valid := true, ModifyTime := 5 },
    { Name := "y", Token := "ty", Owner := "teamY", Valid := true, ModifyTime := 5 },
    { Name := "z", Token := "tz", Owner := "teamZ", Valid := true, ModifyTime := 1 } ]


/-! ## Facts about the handler -/

@[simp]
theorem lookup_singleton_self {β : Type} (a : String) (b : β) :
    AList.lookup a (AList.singleton a b : AList (fun _ : String => β)) = some b := by
  rw [← AList.insert_empty, AList.lookup_insert]

@[simp]
theorem lookup_singleton_ne {β : Type} {a c : String} (b : β) (h : c ≠ a) :
    AList.lookup c (AList.singleton a b : AList (fun _ : String => β)) = none := by
  rw [← AList.insert_empty, AList.lookup_insert_ne h, AList.lookup_empty]

theorem UpdateValue_of_present (h : BoltHandler) (typ key : String) (properties : Properties)
    (old : Namespace) (hok : h.fault = none) (hrec : (h.tables typ).lookup key = some old) :
    h.UpdateValue typ key properties =
      ({ tables := Function.update h.tables typ ((h.tables typ).insert key (old.patch properties)),
         fault := h.fault,
         writes := h.writes ++ [HandlerCall.UpdateValue typ key properties] }, none) := by
  simp [BoltHandler.UpdateValue, hok, hrec]

theorem SaveValue_of_ok (h : BoltHandler) (typ key : String) (value : Namespace)
    (hok : h.fault = none) :
    h.SaveValue typ key value =
      ({ tables := Function.update h.tables typ ((h.tables typ).insert key value),
         fault := h.fault,
         writes := h.writes ++ [HandlerCall.SaveValue typ key value] }, none) := by
  simp [BoltHandler.SaveValue, hok]

theorem sampleStore_lookup :
    (sampleStore.handler.tables tblNameNamespace).lookup "ns1" = some sampleRecord := by
  simp [sampleStore, tblNameNamespace, AList.singleton, AList.lookup]

theorem LoadValues_single (h : BoltHandler) (typ name : String) (hok : h.fault = none) :
    (h.LoadValues typ [name]).2 = none ∧
      (h.LoadValues typ [name]).1.lookup name = (h.tables typ).lookup name := by
  unfold BoltHandler.LoadValues
  rw [hok]
  cases hl : (h.tables typ).lookup name <;> simp [hl]

theorem rawFields_ModifyTime (ns : Namespace) :
    (rawFields ["ModifyTime"] ns).lookup "ModifyTime" = some (Value.time ns.ModifyTime) := by
  simp [rawFields, Namespace.field]

theorem rawFields_Owner (ns : Namespace) :
    (rawFields ["Owner"] ns).lookup "Owner" = some (Value.str ns.Owner) := by
  simp [rawFields, Namespace.field]

/-- A scan whose predicate answers `some (q ns)` on every record selects by `q`. -/
theorem LoadValuesByFilter_of_total (h : BoltHandler) (typ : String) (fields : List String)
    (predicate : Properties → Option Bool) (q : Namespace → Bool) (hok : h.fault = none)
    (hq : ∀ ns, predicate (rawFields fields ns) = some (q ns)) :
    h.LoadValuesByFilter typ fields predicate = some ((h.tables typ).select q, none) := by
  have hfun : (fun ns => predicate (rawFields fields ns) == some true) = q := by
    funext ns
    rw [hq ns]
    cases q ns <;> rfl
  simp [BoltHandler.LoadValuesByFilter, hok, hq, hfun]

theorem mem_select_keys (t : Table) (p : Namespace → Bool) (k : String) :
    k ∈ (t.select p).keys ↔ ∃ r, t.lookup k = some r ∧ p r = true := by
  simp only [Table.select, AList.keys, List.keys, List.mem_map, List.mem_filter]
  constructor
  · rintro ⟨e, ⟨he, hp⟩, rfl⟩
    exact ⟨e.2, AList.mem_lookup_iff.mpr he, hp⟩
  · rintro ⟨r, hr, hp⟩
    exact ⟨⟨k, r⟩, ⟨AList.mem_lookup_iff.mp hr, hp⟩, rfl⟩

theorem mem_toNamespaces_select (t : Table) (p : Namespace → Bool) (r : Namespace) :
    r ∈ toNamespaces (t.select p) ↔ ∃ k, t.lookup k = some r ∧ p r = true := by
  simp only [toNamespaces, Table.select, List.mem_map, List.mem_filter]
  constructor
  · rintro ⟨e, ⟨he, hp⟩, rfl⟩
    exact ⟨e.1, AList.mem_lookup_iff.mpr he, hp⟩
  · rintro ⟨k, hr, hp⟩
    exact ⟨⟨k, r⟩, ⟨AList.mem_lookup_iff.mp hr, hp⟩, rfl⟩

/-- The entities of a selection are the records of its keys, key by key. -/
theorem toNamespaces_select_by_keys (t : Table) (p : Namespace → Bool) :
    (toNamespaces (t.select p)).map some = (t.select p).keys.map (fun k => t.lookup k) := by
  simp only [toNamespaces, Table.select, AList.keys, List.keys, List.map_map]
  apply List.map_congr_left
  intro e he
  have he2 : e ∈ t.entries := (List.mem_filter.mp he).1
  obtain ⟨k, r⟩ := e
  exact (AList.mem_lookup_iff.mpr he2).symm

theorem GetMoreNamespaces_of_ok (n : namespaceStore) (mtime : Time)
    (hok : n.handler.fault = none) :
    n.GetMoreNamespaces mtime =
      some (toNamespaces ((n.handler.tables tblNameNamespace).select
        (fun ns => Time.After ns.ModifyTime mtime)), none) := by
  unfold namespaceStore.GetMoreNamespaces
  rw [LoadValuesByFilter_of_total n.handler tblNameNamespace ["ModifyTime"] _
    (fun ns => Time.After ns.ModifyTime mtime) hok]
  intro ns
  simp only [rawFields_ModifyTime]

theorem foldl_max_ge (rs : List Namespace) (init : Time) :
    init ≤ rs.foldl (fun m x => max m x.ModifyTime) init ∧
      ∀ x ∈ rs, x.ModifyTime ≤ rs.foldl (fun m x => max m x.ModifyTime) init := by
  induction rs generalizing init with
  | nil => simp
  | cons y ys ih =>
    obtain ⟨h1, h2⟩ := ih (max init y.ModifyTime)
    refine ⟨le_trans (le_max_left _ _) h1, ?_⟩
    intro x hx
    rcases List.mem_cons.mp hx with rfl | hx
    · exact le_trans (le_max_right _ _) h1
    · exact h2 x hx

theorem foldl_max_attained (rs : List Namespace) (init : Time) :
    rs.foldl (fun m x => max m x.ModifyTime) init = init ∨
      ∃ x ∈ rs, x.ModifyTime = rs.foldl (fun m x => max m x.ModifyTime) init := by
  induction rs generalizing init with
  | nil => simp
  | cons y ys ih =>
    rcases ih (max init y.ModifyTime) with h | ⟨x, hx, hxe⟩
    · rcases max_choice init y.ModifyTime with hm | hm
      · left
        simp only [List.foldl_cons]
        rw [h, hm]
      · right
        refine ⟨y, List.mem_cons_self _ _, ?_⟩
        simp only [List.foldl_cons]
        rw [h, hm]
    · right
      exact ⟨x, List.mem_cons_of_mem _ hx, hxe⟩

theorem le_maxModifyTime (rs : List Namespace) :
    ∀ x ∈ rs, x.ModifyTime ≤ maxModifyTime rs := by
  cases rs with
  | nil => simp
  | cons r rs =>
    intro x hx
    rcases List.mem_cons.mp hx with rfl | hx
    · exact (foldl_max_ge rs _).1
    · exact (foldl_max_ge rs _).2 x hx

theorem maxModifyTime_attained (rs : List Namespace) (hne : rs ≠ []) :
    ∃ x ∈ rs, x.ModifyTime = maxModifyTime rs := by
  cases rs with
  | nil => exact absurd rfl hne
  | cons r rs =>
    rcases foldl_max_attained rs r.ModifyTime with h | ⟨x, hx, hxe⟩
    · exact ⟨r, List.mem_cons_self _ _, h.symm⟩
    · exact ⟨x, List.mem_cons_of_mem _ hx, hxe⟩

theorem wrapInt_of_inRange (x : Int) (h0 : 0 ≤ x) (h1 : x < 2 ^ 63) : wrapInt x = x := by
  unfold wrapInt
  have h2 : (x + 2 ^ 63) % 2 ^ 64 = x + 2 ^ 63 := by
    apply Int.emod_eq_of_lt
    · positivity
    · norm_num at h1 ⊢
      omega
  rw [h2]
  ring

theorem LoadValuesAll_of_ok (h : BoltHandler) (typ : String) (hok : h.fault = none) :
    h.LoadValuesAll typ = (h.tables typ, none) := by
  simp [BoltHandler.LoadValuesAll, hok]

theorem sort_Reverse_perm (l : List Namespace) :
    (sort.Sort (sort.Reverse NamespaceSlice.Less) l).Perm l :=
  List.perm_insertionSort _ l

theorem sort_Reverse_sorted (l : List Namespace) :
    (sort.Sort (sort.Reverse NamespaceSlice.Less) l).Sorted
      (fun a b => b.ModifyTime ≤ a.ModifyTime) := by
  have hrel : ∀ a b : Namespace,
      (sort.Reverse NamespaceSlice.Less b a = false) ↔ b.ModifyTime ≤ a.ModifyTime := by
    intro a b
    simp [sort.Reverse, NamespaceSlice.Less, Time.Before]
  haveI : IsTotal Namespace (fun a b => sort.Reverse NamespaceSlice.Less b a = false) :=
    ⟨fun a b => by
      rw [hrel a b, hrel b a]
      exact le_total _ _⟩
  haveI : IsTrans Namespace (fun a b => sort.Reverse NamespaceSlice.Less b a = false) :=
    ⟨fun a b c hab hbc => by
      rw [hrel] at hab hbc ⊢
      exact le_trans hbc hab⟩
  have hs := List.sorted_insertionSort
    (fun a b : Namespace => sort.Reverse NamespaceSlice.Less b a = false) l
  exact List.Pairwise.imp (fun {a b} h => (hrel a b).mp h) hs

/-- `strings.Contains` answers true exactly when the text splits as
prefix, the searched substring, suffix. -/
theorem strings_Contains_iff (s substr : String) :
    strings.Contains s substr = true ↔ ∃ pre post : String, s = pre ++ substr ++ post := by
  simp only [strings.Contains, decide_eq_true_eq]
  constructor
  · rintro ⟨a, b, hab⟩
    refine ⟨⟨a⟩, ⟨b⟩, ?_⟩
    apply String.ext
    simp [String.data_append, hab]
  · rintro ⟨pre, post, h⟩
    refine ⟨pre.data, post.data, ?_⟩
    rw [h]
    simp [String.data_append]

theorem ListNamespaces_of_ok (n : namespaceStore) (owner : String) (howner : owner ≠ "")
    (hok : n.handler.fault = none) :
    n.ListNamespaces owner =
      some (toNamespaces ((n.handler.tables tblNameNamespace).select
        (fun ns => strings.Contains ns.Owner owner)), none) := by
  unfold namespaceStore.ListNamespaces
  rw [if_neg howner, LoadValuesByFilter_of_total n.handler tblNameNamespace ["Owner"] _
    (fun ns => strings.Contains ns.Owner owner) hok]
  intro ns
  simp only [rawFields_Owner]

theorem AddNamespace_of_ok (n : namespaceStore) (ns : Namespace)
    (hName : ns.Name ≠ "") (hOwner : ns.Owner ≠ "") (hToken : ns.Token ≠ "")
    (hok : n.handler.fault = none) :
    n.AddNamespace ns =
      ({ handler :=
          { tables := Function.update n.handler.tables tblNameNamespace
              ((n.handler.tables tblNameNamespace).insert ns.Name ns),
            fault := n.handler.fault,
            writes := n.handler.writes ++ [HandlerCall.SaveValue tblNameNamespace ns.Name ns] } },
        none) := by
  simp [namespaceStore.AddNamespace, hName, hOwner, hToken, SaveValue_of_ok _ _ _ _ hok]

/-- A successful `AddNamespace` had its three required fields and met no storage failure. -/
theorem AddNamespace_success_inv (n : namespaceStore) (ns : Namespace)
    (hadd : (n.AddNamespace ns).2 = none) :
    ns.Name ≠ "" ∧ ns.Owner ≠ "" ∧ ns.Token ≠ "" ∧ n.handler.fault = none := by
  by_cases h : ns.Name = "" ∨ ns.Owner = "" ∨ ns.Token = ""
  · simp [namespaceStore.AddNamespace, h] at hadd
  · have hf : n.handler.fault = none := by
      cases hf : n.handler.fault with
      | none => rfl
      | some e => simp [namespaceStore.AddNamespace, h, BoltHandler.SaveValue, hf] at hadd
    simp only [not_or] at h
    exact ⟨h.1, h.2.1, h.2.2, hf⟩

theorem GetNamespace_of_ok (n : namespaceStore) (name : String) (hok : n.handler.fault = none) :
    n.GetNamespace name =
      match (n.handler.tables tblNameNamespace).lookup name with
      | none => (none, none)
      | some ns => if !ns.Valid then (none, none) else (some ns, none) := by
  obtain ⟨herr, hval⟩ := LoadValues_single n.handler tblNameNamespace name hok
  unfold namespaceStore.GetNamespace
  generalize n.handler.LoadValues tblNameNamespace [name] = res at herr hval
  obtain ⟨values, err⟩ := res
  simp only at herr hval
  subst herr
  simp only
  rw [hval]

/-- What one call does to table "namespace": nothing, a full write of a validated
entity under its name, or one of the two patches on a record that is there. -/
theorem call_table_cases (n : namespaceStore) (c : Call) :
    (n.call c).1.handler.tables tblNameNamespace = n.handler.tables tblNameNamespace ∨
    (∃ ns : Namespace, c.op = Op.AddNamespace ns ∧ ns.Name ≠ "" ∧ ns.Owner ≠ "" ∧ ns.Token ≠ "" ∧
      (n.call c).1.handler.tables tblNameNamespace =
        (n.handler.tables tblNameNamespace).insert ns.Name ns) ∨
    (∃ (ns old : Namespace) (now : Time), c.op = Op.UpdateNamespace ns now ∧ ns.Name ≠ "" ∧ ns.Owner ≠ "" ∧
      (n.handler.tables tblNameNamespace).lookup ns.Name = some old ∧
      (n.call c).1.handler.tables tblNameNamespace =
        (n.handler.tables tblNameNamespace).insert ns.Name
          { Name := old.Name, Comment := ns.Comment, Token := old.Token, Owner := ns.Owner,
            Valid := old.Valid, CreateTime := old.CreateTime, ModifyTime := now }) ∨
    (∃ (name token : String) (old : Namespace) (now : Time),
      c.op = Op.UpdateNamespaceToken name token now ∧ name ≠ "" ∧ token ≠ "" ∧
      (n.handler.tables tblNameNamespace).lookup name = some old ∧
      (n.call c).1.handler.tables tblNameNamespace =
        (n.handler.tables tblNameNamespace).insert name
          { Name := old.Name, Comment := old.Comment, Token := token, Owner := old.Owner,
            Valid := old.Valid, CreateTime := old.CreateTime, ModifyTime := now }) := by
  obtain ⟨op, fault⟩ := c
  cases op with
  | AddNamespace ns =>
    by_cases h : ns.Name = "" ∨ ns.Owner = "" ∨ ns.Token = ""
    · left
      simp [namespaceStore.call, namespaceStore.AddNamespace, h]
    · cases fault with
      | some e =>
        left
        simp [namespaceStore.call, namespaceStore.AddNamespace, h, BoltHandler.SaveValue]
      | none =>
        right
        left
        simp only [not_or] at h
        refine ⟨ns, rfl, h.1, h.2.1, h.2.2, ?_⟩
        simp only [namespaceStore.call]
        rw [AddNamespace_of_ok _ ns h.1 h.2.1 h.2.2 rfl]
        simp
  | UpdateNamespace ns now =>
    by_cases h : ns.Name = "" ∨ ns.Owner = ""
    · left
      simp [namespaceStore.call, namespaceStore.UpdateNamespace, h]
    · cases fault with
      | some e =>
        left
        simp [namespaceStore.call, namespaceStore.UpdateNamespace, h, BoltHandler.UpdateValue]
      | none =>
        cases hl : (n.handler.tables tblNameNamespace).lookup ns.Name with
        | none =>
          left
          simp [namespaceStore.call, namespaceStore.UpdateNamespace, h, BoltHandler.UpdateValue,
            hl]
        | some old =>
          right
          right
          left
          simp only [not_or] at h
          refine ⟨ns, old, now, rfl, h.1, h.2, hl, ?_⟩
          simp [namespaceStore.call, namespaceStore.UpdateNamespace, h.1, h.2,
            BoltHandler.UpdateValue, hl, Namespace.patch, patchStr, patchBool, patchTime,
            AList.lookup_insert_ne]
  | UpdateNamespaceToken name token now =>
    by_cases h : name = "" ∨ token = ""
    · left
      simp [namespaceStore.call, namespaceStore.UpdateNamespaceToken, h]
    · cases fault with
      | some e =>
        left
        simp [namespaceStore.call, namespaceStore.UpdateNamespaceToken, h,
          BoltHandler.UpdateValue]
      | none =>
        cases hl : (n.handler.tables tblNameNamespace).lookup name with
        | none =>
          left
          simp [namespaceStore.call, namespaceStore.UpdateNamespaceToken, h,
            BoltHandler.UpdateValue, hl]
        | some old =>
          right
          right
          right
          simp only [not_or] at h
          refine ⟨name, token, old, now, rfl, h.1, h.2, hl, ?_⟩
          simp [namespaceStore.call, namespaceStore.UpdateNamespaceToken, h.1, h.2,
            BoltHandler.UpdateValue, hl, Namespace.patch, patchStr, patchBool, patchTime,
            AList.lookup_insert_ne]

/-- A property of the records of table "namespace" that every call preserves holds
after every sequence of calls. -/
theorem run_preserves (P : Table → Prop)
    (hstep : ∀ (s : namespaceStore) (c : Call), P (s.handler.tables tblNameNamespace) →
      P ((s.call c).1.handler.tables tblNameNamespace))
    (calls : List Call) :
    ∀ n : namespaceStore, P (n.handler.tables tblNameNamespace) →
      P ((n.run calls).handler.tables tblNameNamespace) := by
  induction calls with
  | nil =>
    intro n h
    exact h
  | cons c cs ih =>
    intro n h
    exact ih (n.call c).1 (hstep n c h)

/-- In a table where every record has the three required fields, a validated write or
patch leaves it so. -/
theorem call_keeps_required (s : namespaceStore) (c : Call)
    (h : ∀ k r, (s.handler.tables tblNameNamespace).lookup k = some r →
      r.Name ≠ "" ∧ r.Owner ≠ "" ∧ r.Token ≠ "") :
    ∀ k r, ((s.call c).1.handler.tables tblNameNamespace).lookup k = some r →
      r.Name ≠ "" ∧ r.Owner ≠ "" ∧ r.Token ≠ "" := by
  intro k r hk
  rcases call_table_cases s c with he | ⟨ns, _, h1, h2, h3, he⟩ |
      ⟨ns, old, now, _, h1, h2, hl, he⟩ | ⟨name, token, old, now, _, h1, h2, hl, he⟩
  · rw [he] at hk
    exact h k r hk
  · rw [he] at hk
    by_cases hkn : k = ns.Name
    · subst hkn
      rw [AList.lookup_insert] at hk
      cases hk
      exact ⟨h1, h2, h3⟩
    · rw [AList.lookup_insert_ne hkn] at hk
      exact h k r hk
  · rw [he] at hk
    by_cases hkn : k = ns.Name
    · subst hkn
      rw [AList.lookup_insert] at hk
      cases hk
      obtain ⟨o1, _, o3⟩ := h _ old hl
      exact ⟨o1, h2, o3⟩
    · rw [AList.lookup_insert_ne hkn] at hk
      exact h k r hk
  · rw [he] at hk
    by_cases hkn : k = name
    · subst hkn
      rw [AList.lookup_insert] at hk
      cases hk
      obtain ⟨o1, o2, _⟩ := h _ old hl
      exact ⟨o1, o2, h2⟩
    · rw [AList.lookup_insert_ne hkn] at hk
      exact h k r hk

/-- In a table where every record carries its key as `Name`, a validated write or
patch leaves it so. -/
theorem call_keeps_key_name (s : namespaceStore) (c : Call)
    (h : ∀ k r, (s.handler.tables tblNameNamespace).lookup k = some r → r.Name = k) :
    ∀ k r, ((s.call c).1.handler.tables tblNameNamespace).lookup k = some r → r.Name = k := by
  intro k r hk
  rcases call_table_cases s c with he | ⟨ns, _, h1, h2, h3, he⟩ |
      ⟨ns, old, now, _, h1, h2, hl, he⟩ | ⟨name, token, old, now, _, h1, h2, hl, he⟩
  · rw [he] at hk
    exact h k r hk
  · rw [he] at hk
    by_cases hkn : k = ns.Name
    · subst hkn
      rw [AList.lookup_insert] at hk
      cases hk
      rfl
    · rw [AList.lookup_insert_ne hkn] at hk
      exact h k r hk
  · rw [he] at hk
    by_cases hkn : k = ns.Name
    · subst hkn
      rw [AList.lookup_insert] at hk
      cases hk
      exact h _ old hl
    · rw [AList.lookup_insert_ne hkn] at hk
      exact h k r hk
  · rw [he] at hk
    by_cases hkn : k = name
    · subst hkn
      rw [AList.lookup_insert] at hk
      cases hk
      exact h _ old hl
    · rw [AList.lookup_insert_ne hkn] at hk
      exact h k r hk


/-- The slice `namespaces` of `GetNamespaces` has as many elements as the table has records. -/
theorem sorted_length (t : Table) :
    (sort.Sort (sort.Reverse NamespaceSlice.Less) (toNamespaces t)).length = t.entries.length := by
  simp [sort.Sort, toNamespaces, List.length_insertionSort]

/-- With the scan succeeding and `startIdx` below the length, `GetNamespaces` is its
slice expression at the indices `startIdx` and `endIdx`. -/
theorem GetNamespaces_reaches_slice (n : namespaceStore)
    (filter : AList (fun _ : String => List String)) (offset limit : Int)
    (hok : n.handler.fault = none)
    (hreach : startIdx offset limit <
      ((n.handler.tables tblNameNamespace).entries.length : Int)) :
    n.GetNamespaces filter offset limit =
      match sliceExpr (sort.Sort (sort.Reverse NamespaceSlice.Less)
          (toNamespaces (n.handler.tables tblNameNamespace)))
        (startIdx offset limit)
        (endIdx ((n.handler.tables tblNameNamespace).entries.length : Int) offset limit) with
      | none => none
      | some page => some (page, 0, none) := by
  unfold namespaceStore.GetNamespaces
  rw [LoadValuesAll_of_ok _ _ hok]
  simp only [sorted_length]
  have hnot : ¬ (wrapInt (offset * limit) ≥
      ((n.handler.tables tblNameNamespace).entries.length : Int)) := not_le.mpr hreach
  rw [if_neg hnot]
  rfl


/-- Cutting a list into consecutive pieces of size `L` and joining them gives the list back. -/
theorem pieces_join {α : Type} (L : Nat) :
    ∀ (P : Nat) (l : List α), l.length ≤ P * L →
      ((List.range P).map (fun i => (l.drop (i * L)).take L)).flatten = l := by
  intro P
  induction P with
  | zero =>
    intro l hl
    have : l = [] := List.length_eq_zero.mp (by omega)
    simp [this]
  | succ P ih =>
    intro l hl
    rw [List.range_succ_eq_map]
    simp only [List.map_cons, List.map_map, List.flatten_cons, zero_mul, List.drop_zero]
    have hrest : ((List.range P).map
        ((fun i => (l.drop (i * L)).take L) ∘ Nat.succ)) =
        (List.range P).map (fun i => ((l.drop L).drop (i * L)).take L) := by
      apply List.map_congr_left
      intro i _
      simp only [Function.comp, List.drop_drop]
      congr 2
      rw [Nat.succ_mul]
      omega
    rw [hrest, ih (l.drop L)]
    · exact List.take_append_drop L l
    · rw [List.length_drop]
      rw [Nat.succ_mul] at hl
      omega

/-- The number of pages `⌈N / L⌉` covers `N`, and every page before it starts inside. -/
theorem pages_arith (N L : Nat) (hL : 0 < L) :
    N ≤ (N + L - 1) / L * L ∧ ∀ i, i < (N + L - 1) / L → i * L < N := by
  constructor
  · have h := Nat.lt_div_mul_add (a := N + L - 1) hL
    omega
  · intro i hi
    have h1 : (i + 1) * L ≤ (N + L - 1) / L * L := Nat.mul_le_mul_right L hi
    have h2 : (N + L - 1) / L * L ≤ N + L - 1 := Nat.div_mul_le_self _ _
    rw [Nat.succ_mul] at h1
    omega

/-- Without wrap-around `GetNamespaces` returns `limit` elements of the sorted slice
from position `offset * limit` on, or as many as are left. -/
theorem GetNamespaces_page_exact (n : namespaceStore)
    (filter : AList (fun _ : String => List String)) (offset limit : Int)
    (hoff : 0 ≤ offset) (hlim : 0 ≤ limit) (hfit : offset * limit + limit < 2 ^ 63)
    (hok : n.handler.fault = none) :
    n.GetNamespaces filter offset limit =
      some (((sort.Sort (sort.Reverse NamespaceSlice.Less)
        (toNamespaces (n.handler.tables tblNameNamespace))).drop (offset * limit).toNat).take
          limit.toNat, 0, none) := by
  have hprod : 0 ≤ offset * limit := mul_nonneg hoff hlim
  have hstart : wrapInt (offset * limit) = offset * limit :=
    wrapInt_of_inRange _ hprod (by omega)
  have hend : wrapInt (offset * limit + limit) = offset * limit + limit :=
    wrapInt_of_inRange _ (by omega) hfit
  unfold namespaceStore.GetNamespaces
  rw [LoadValuesAll_of_ok _ _ hok]
  simp only [hstart, hend]
  generalize sort.Sort (sort.Reverse NamespaceSlice.Less)
    (toNamespaces (n.handler.tables tblNameNamespace)) = arranged
  generalize offset * limit = start at hprod hfit
  by_cases hge : start ≥ (arranged.length : Int)
  · have hdrop : arranged.drop start.toNat = [] := by
      apply List.drop_eq_nil_of_le
      omega
    simp [hge, hdrop]
  · by_cases hgt : start + limit > (arranged.length : Int)
    · simp only [hge, hgt, if_true, if_false]
      have hcond : 0 ≤ start ∧ start ≤ (arranged.length : Int) ∧
          (arranged.length : Int) ≤ (arranged.length : Int) := by omega
      simp only [sliceExpr, hcond, and_self, if_true]
      have h1 : (arranged.drop start.toNat).take
          (((arranged.length : Int)).toNat - start.toNat) = arranged.drop start.toNat := by
        apply List.take_of_length_le
        rw [List.length_drop]
        omega
      have h2 : (arranged.drop start.toNat).take limit.toNat = arranged.drop start.toNat := by
        apply List.take_of_length_le
        rw [List.length_drop]
        omega
      rw [h1, h2]
    · simp only [hge, hgt, if_false]
      have hcond : 0 ≤ start ∧ start ≤ start + limit ∧
          start + limit ≤ (arranged.length : Int) := by omega
      simp only [sliceExpr, hcond, and_self, if_true]
      have h3 : (start + limit).toNat - start.toNat = limit.toNat := by omega
      rw [h3]


/-- One call on a table whose `ModifyTime`s do not exceed what the call writes: no
record is lost, no `ModifyTime` goes down, and the bound holds afterwards. -/
theorem call_ModifyTime_step (s : namespaceStore) (c : Call)
    (hb : ∀ k r, (s.handler.tables tblNameNamespace).lookup k = some r →
      r.ModifyTime ≤ c.op.written) :
    (∀ k r, (s.handler.tables tblNameNamespace).lookup k = some r →
      ∃ r2, ((s.call c).1.handler.tables tblNameNamespace).lookup k = some r2 ∧
        r.ModifyTime ≤ r2.ModifyTime) ∧
    (∀ k r, ((s.call c).1.handler.tables tblNameNamespace).lookup k = some r →
      r.ModifyTime ≤ c.op.written) := by
  rcases call_table_cases s c with he | ⟨ns, hop, _, _, _, he⟩ |
      ⟨ns, old, now, hop, _, _, _, he⟩ | ⟨name, token, old, now, hop, _, _, _, he⟩
  · rw [he]
    exact ⟨fun k r hk => ⟨r, hk, le_refl _⟩, hb⟩
  · rw [he]
    have hw : c.op.written = ns.ModifyTime := by rw [hop]; rfl
    constructor
    · intro k r hk
      by_cases hkn : k = ns.Name
      · subst hkn
        exact ⟨ns, AList.lookup_insert _, hw ▸ hb _ r hk⟩
      · exact ⟨r, by rw [AList.lookup_insert_ne hkn]; exact hk, le_refl _⟩
    · intro k r hk
      by_cases hkn : k = ns.Name
      · subst hkn
        rw [AList.lookup_insert] at hk
        cases hk
        exact le_of_eq hw.symm
      · rw [AList.lookup_insert_ne hkn] at hk
        exact hb k r hk
  · rw [he]
    have hw : c.op.written = now := by rw [hop]; rfl
    constructor
    · intro k r hk
      by_cases hkn : k = ns.Name
      · subst hkn
        exact ⟨_, AList.lookup_insert _, hw ▸ hb _ r hk⟩
      · exact ⟨r, by rw [AList.lookup_insert_ne hkn]; exact hk, le_refl _⟩
    · intro k r hk
      by_cases hkn : k = ns.Name
      · subst hkn
        rw [AList.lookup_insert] at hk
        cases hk
        exact le_of_eq hw.symm
      · rw [AList.lookup_insert_ne hkn] at hk
        exact hb k r hk
  · rw [he]
    have hw : c.op.written = now := by rw [hop]; rfl
    constructor
    · intro k r hk
      by_cases hkn : k = name
      · subst hkn
        exact ⟨_, AList.lookup_insert _, hw ▸ hb _ r hk⟩
      · exact ⟨r, by rw [AList.lookup_insert_ne hkn]; exact hk, le_refl _⟩
    · intro k r hk
      by_cases hkn : k = name
      · subst hkn
        rw [AList.lookup_insert] at hk
        cases hk
        exact le_of_eq hw.symm
      · rw [AList.lookup_insert_ne hkn] at hk
        exact hb k r hk

/-- After calls whose written `ModifyTime`s do not decrease, no stored `ModifyTime`
exceeds what the next call writes. -/
theorem run_ModifyTime_bound (c : Call) :
    ∀ (pre : List Call) (n0 : namespaceStore),
      ((pre ++ [c]).map (fun d => d.op.written)).Sorted (fun a b => a ≤ b) →
      (∀ k r, (n0.handler.tables tblNameNamespace).lookup k = some r →
        ∀ d, d ∈ pre ++ [c] → r.ModifyTime ≤ d.op.written) →
      ∀ k r, ((n0.run pre).handler.tables tblNameNamespace).lookup k = some r →
        r.ModifyTime ≤ c.op.written := by
  intro pre
  induction pre with
  | nil =>
    intro n0 _ hinit k r hk
    exact hinit k r hk c (by simp)
  | cons d ds ih =>
    intro n0 hsorted hinit k r hk
    have hsorted2 : ((d :: (ds ++ [c])).map (fun d => d.op.written)).Sorted
        (fun a b => a ≤ b) := hsorted
    rw [List.map_cons, List.sorted_cons] at hsorted2
    have hstep := call_ModifyTime_step n0 d
      (fun k r hk => hinit k r hk d (by simp))
    apply ih (n0.call d).1 hsorted2.2 _ k r hk
    intro k2 r2 hk2 e he
    exact le_trans (hstep.2 k2 r2 hk2) (hsorted2.1 _ (List.mem_map_of_mem _ he))


/-- A call of `GetNamespaces` whose scan succeeds returns the page cut from the slice
it sorted. -/
theorem GetNamespaces_eq_page (n : namespaceStore)
    (filter : AList (fun _ : String => List String)) (offset limit : Int)
    (hok : n.handler.fault = none) :
    n.GetNamespaces filter offset limit =
      GetNamespaces.page (sort.Sort (sort.Reverse NamespaceSlice.Less)
        (toNamespaces (n.handler.tables tblNameNamespace))) offset limit := by
  unfold namespaceStore.GetNamespaces GetNamespaces.page
  rw [LoadValuesAll_of_ok _ _ hok]

/-- A start index at or beyond the end gives the empty page; only the product has
to stay below `2^63` for that. -/
theorem page_beyond_end (arranged : List Namespace) (offset limit : Int)
    (hoff : 0 ≤ offset) (hlim : 0 ≤ limit) (hprod : offset * limit < 2 ^ 63)
    (hge : (arranged.length : Int) ≤ offset * limit) :
    GetNamespaces.page arranged offset limit = some ([], 0, none) := by
  have hstart : wrapInt (offset * limit) = offset * limit :=
    wrapInt_of_inRange _ (mul_nonneg hoff hlim) hprod
  unfold GetNamespaces.page
  simp only [hstart]
  rw [if_pos hge]

/-- Without wrap-around the page holds `limit` elements of the slice from position
`offset * limit` on, or as many as are left. -/
theorem page_exact (arranged : List Namespace) (offset limit : Int)
    (hoff : 0 ≤ offset) (hlim : 0 ≤ limit) (hfit : offset * limit + limit < 2 ^ 63) :
    GetNamespaces.page arranged offset limit =
      some ((arranged.drop (offset * limit).toNat).take limit.toNat, 0, none) := by
  have hprod : 0 ≤ offset * limit := mul_nonneg hoff hlim
  have hstart : wrapInt (offset * limit) = offset * limit :=
    wrapInt_of_inRange _ hprod (by omega)
  have hend : wrapInt (offset * limit + limit) = offset * limit + limit :=
    wrapInt_of_inRange _ (by omega) hfit
  unfold GetNamespaces.page
  simp only [hstart, hend]
  generalize offset * limit = start at hprod hfit
  by_cases hge : start ≥ (arranged.length : Int)
  · have hdrop : arranged.drop start.toNat = [] := by
      apply List.drop_eq_nil_of_le
      omega
    simp [hge, hdrop]
  · by_cases hgt : start + limit > (arranged.length : Int)
    · simp only [hge, hgt, if_true, if_false]
      have hcond : 0 ≤ start ∧ start ≤ (arranged.length : Int) ∧
          (arranged.length : Int) ≤ (arranged.length : Int) := by omega
      simp only [sliceExpr, hcond, and_self, if_true]
      have h1 : (arranged.drop start.toNat).take
          (((arranged.length : Int)).toNat - start.toNat) = arranged.drop start.toNat := by
        apply List.take_of_length_le
        rw [List.length_drop]
        omega
      have h2 : (arranged.drop start.toNat).take limit.toNat = arranged.drop start.toNat := by
        apply List.take_of_length_le
        rw [List.length_drop]
        omega
      rw [h1, h2]
    · simp only [hge, hgt, if_false]
      have hcond : 0 ≤ start ∧ start ≤ start + limit ∧
          start + limit ≤ (arranged.length : Int) := by omega
      simp only [sliceExpr, hcond, and_self, if_true]
      have h3 : (start + limit).toNat - start.toNat = limit.toNat := by omega
      rw [h3]


/-! ## Partial updates -/

/-- C1: on a store that holds a record under `ns.Name`, with `ns.Name` and `ns.Owner`
non-empty and the handler call succeeding, `UpdateNamespace` hands the handler one
patch whose keys are exactly Owner, Comment and ModifyTime; afterwards the record
under that key has the new Owner and Comment and the clock reading as ModifyTime,
its Name, Token, Valid and CreateTime are the old ones, and every other record
(and every other table) is as before. -/
theorem UpdateNamespace_patch_frame (n : namespaceStore) (ns old : Namespace) (now : Time)
    (hName : ns.Name ≠ "") (hOwner : ns.Owner ≠ "")
    (hrec : (n.handler.tables tblNameNamespace).lookup ns.Name = some old)
    (hok : n.handler.fault = none) :
    ∃ properties : Properties,
      (n.UpdateNamespace ns now).1.handler.writes =
        n.handler.writes ++ [HandlerCall.UpdateValue tblNameNamespace ns.Name properties] ∧
      (∀ k, k ∈ properties.keys ↔ k = "Owner" ∨ k = "Comment" ∨ k = "ModifyTime") ∧
      properties.lookup "Owner" = some (Value.str ns.Owner) ∧
      properties.lookup "Comment" = some (Value.str ns.Comment) ∧
      properties.lookup "ModifyTime" = some (Value.time now) ∧
      (n.UpdateNamespace ns now).2 = none ∧
      ((n.UpdateNamespace ns now).1.handler.tables tblNameNamespace).lookup ns.Name =
        some { Name := old.Name, Comment := ns.Comment, Token := old.Token, Owner := ns.Owner,
               Valid := old.Valid, CreateTime := old.CreateTime, ModifyTime := now } ∧
      (∀ k, k ≠ ns.Name →
        ((n.UpdateNamespace ns now).1.handler.tables tblNameNamespace).lookup k =
          (n.handler.tables tblNameNamespace).lookup k) ∧
      (∀ typ, typ ≠ tblNameNamespace →
        (n.UpdateNamespace ns now).1.handler.tables typ = n.handler.tables typ) := by
  refine ⟨((((∅ : Properties).insert "Owner" (Value.str ns.Owner)).insert "Comment"
      (Value.str ns.Comment)).insert "ModifyTime" (Value.time now)), ?_, ?_, ?_, ?_, ?_, ?_, ?_, ?_, ?_⟩
  · simp [namespaceStore.UpdateNamespace, hName, hOwner, UpdateValue_of_present _ _ _ _ old hok hrec]
  · intro k
    rw [← AList.mem_keys]
    simp only [AList.mem_insert, AList.not_mem_empty, or_false]
    tauto
  · simp [AList.lookup_insert_ne]
  · simp [AList.lookup_insert_ne]
  · simp
  · simp [namespaceStore.UpdateNamespace, hName, hOwner, UpdateValue_of_present _ _ _ _ old hok hrec]
  · simp [namespaceStore.UpdateNamespace, hName, hOwner, UpdateValue_of_present _ _ _ _ old hok hrec,
      Namespace.patch, patchStr, patchBool, patchTime, AList.lookup_insert_ne]
  · intro k hk
    simp [namespaceStore.UpdateNamespace, hName, hOwner, UpdateValue_of_present _ _ _ _ old hok hrec,
      AList.lookup_insert_ne hk]
  · intro typ htyp
    simp [namespaceStore.UpdateNamespace, hName, hOwner, UpdateValue_of_present _ _ _ _ old hok hrec,
      Function.update_noteq htyp]

/-- C1 at `sampleStore`, updating "ns1" to owner "teamB" and comment "c" at clock reading 20. -/
theorem UpdateNamespace_patch_frame_witness :
    sampleUpdate.Name ≠ "" ∧ sampleUpdate.Owner ≠ "" ∧
    (sampleStore.handler.tables tblNameNamespace).lookup sampleUpdate.Name = some sampleRecord ∧
    sampleStore.handler.fault = none ∧
    ∃ properties : Properties,
      (sampleStore.UpdateNamespace sampleUpdate 20).1.handler.writes =
        sampleStore.handler.writes ++
          [HandlerCall.UpdateValue tblNameNamespace sampleUpdate.Name properties] ∧
      (∀ k, k ∈ properties.keys ↔ k = "Owner" ∨ k = "Comment" ∨ k = "ModifyTime") ∧
      properties.lookup "Owner" = some (Value.str sampleUpdate.Owner) ∧
      properties.lookup "Comment" = some (Value.str sampleUpdate.Comment) ∧
      properties.lookup "ModifyTime" = some (Value.time 20) ∧
      (sampleStore.UpdateNamespace sampleUpdate 20).2 = none ∧
      ((sampleStore.UpdateNamespace sampleUpdate 20).1.handler.tables tblNameNamespace).lookup
          sampleUpdate.Name =
        some { Name := sampleRecord.Name, Comment := sampleUpdate.Comment,
               Token := sampleRecord.Token, Owner := sampleUpdate.Owner,
               Valid := sampleRecord.Valid, CreateTime := sampleRecord.CreateTime,
               ModifyTime := 20 } ∧
      (∀ k, k ≠ sampleUpdate.Name →
        ((sampleStore.UpdateNamespace sampleUpdate 20).1.handler.tables tblNameNamespace).lookup k =
          (sampleStore.handler.tables tblNameNamespace).lookup k) ∧
      (∀ typ, typ ≠ tblNameNamespace →
        (sampleStore.UpdateNamespace sampleUpdate 20).1.handler.tables typ =
          sampleStore.handler.tables typ) :=
  ⟨by decide, by decide, sampleStore_lookup, rfl,
    UpdateNamespace_patch_frame sampleStore sampleUpdate sampleRecord 20 (by decide) (by decide)
      sampleStore_lookup rfl⟩

/-- C2: on a store that holds a record under `name`, with `name` and `token` non-empty
and the handler call succeeding, `UpdateNamespaceToken` hands the handler one patch
whose keys are exactly Token and ModifyTime; afterwards the record has the new
Token (and the clock reading as ModifyTime), its Owner, Comment, Name, Valid and
CreateTime are the old ones, and every other record (and table) is as before. -/
theorem UpdateNamespaceToken_patch_frame (n : namespaceStore) (name token : String)
    (old : Namespace) (now : Time) (hName : name ≠ "") (hToken : token ≠ "")
    (hrec : (n.handler.tables tblNameNamespace).lookup name = some old)
    (hok : n.handler.fault = none) :
    ∃ properties : Properties,
      (n.UpdateNamespaceToken name token now).1.handler.writes =
        n.handler.writes ++ [HandlerCall.UpdateValue tblNameNamespace name properties] ∧
      (∀ k, k ∈ properties.keys ↔ k = "Token" ∨ k = "ModifyTime") ∧
      properties.lookup "Token" = some (Value.str token) ∧
      properties.lookup "ModifyTime" = some (Value.time now) ∧
      (n.UpdateNamespaceToken name token now).2 = none ∧
      ((n.UpdateNamespaceToken name token now).1.handler.tables tblNameNamespace).lookup name =
        some { Name := old.Name, Comment := old.Comment, Token := token, Owner := old.Owner,
               Valid := old.Valid, CreateTime := old.CreateTime, ModifyTime := now } ∧
      (∀ k, k ≠ name →
        ((n.UpdateNamespaceToken name token now).1.handler.tables tblNameNamespace).lookup k =
          (n.handler.tables tblNameNamespace).lookup k) ∧
      (∀ typ, typ ≠ tblNameNamespace →
        (n.UpdateNamespaceToken name token now).1.handler.tables typ = n.handler.tables typ) := by
  refine ⟨(((∅ : Properties).insert "Token" (Value.str token)).insert "ModifyTime"
      (Value.time now)), ?_, ?_, ?_, ?_, ?_, ?_, ?_, ?_⟩
  · simp [namespaceStore.UpdateNamespaceToken, hName, hToken, UpdateValue_of_present _ _ _ _ old hok hrec]
  · intro k
    rw [← AList.mem_keys]
    simp only [AList.mem_insert, AList.not_mem_empty, or_false]
    tauto
  · simp [AList.lookup_insert_ne]
  · simp
  · simp [namespaceStore.UpdateNamespaceToken, hName, hToken, UpdateValue_of_present _ _ _ _ old hok hrec]
  · simp [namespaceStore.UpdateNamespaceToken, hName, hToken, UpdateValue_of_present _ _ _ _ old hok hrec,
      Namespace.patch, patchStr, patchBool, patchTime, AList.lookup_insert_ne]
  · intro k hk
    simp [namespaceStore.UpdateNamespaceToken, hName, hToken, UpdateValue_of_present _ _ _ _ old hok hrec, AList.lookup_insert_ne hk]
  · intro typ htyp
    simp [namespaceStore.UpdateNamespaceToken, hName, hToken, UpdateValue_of_present _ _ _ _ old hok hrec, Function.update_noteq htyp]

/-- C2 at `sampleStore`, rotating the token of "ns1" to "t2" at clock reading 30. -/
theorem UpdateNamespaceToken_patch_frame_witness :
    ("ns1" : String) ≠ "" ∧ ("t2" : String) ≠ "" ∧
    (sampleStore.handler.tables tblNameNamespace).lookup "ns1" = some sampleRecord ∧
    sampleStore.handler.fault = none ∧
    ∃ properties : Properties,
      (sampleStore.UpdateNamespaceToken "ns1" "t2" 30).1.handler.writes =
        sampleStore.handler.writes ++ [HandlerCall.UpdateValue tblNameNamespace "ns1" properties] ∧
      (∀ k, k ∈ properties.keys ↔ k = "Token" ∨ k = "ModifyTime") ∧
      properties.lookup "Token" = some (Value.str "t2") ∧
      properties.lookup "ModifyTime" = some (Value.time 30) ∧
      (sampleStore.UpdateNamespaceToken "ns1" "t2" 30).2 = none ∧
      ((sampleStore.UpdateNamespaceToken "ns1" "t2" 30).1.handler.tables tblNameNamespace).lookup
          "ns1" =
        some { Name := sampleRecord.Name, Comment := sampleRecord.Comment, Token := "t2",
               Owner := sampleRecord.Owner, Valid := sampleRecord.Valid,
               CreateTime := sampleRecord.CreateTime, ModifyTime := 30 } ∧
      (∀ k, k ≠ "ns1" →
        ((sampleStore.UpdateNamespaceToken "ns1" "t2" 30).1.handler.tables tblNameNamespace).lookup k =
          (sampleStore.handler.tables tblNameNamespace).lookup k) ∧
      (∀ typ, typ ≠ tblNameNamespace →
        (sampleStore.UpdateNamespaceToken "ns1" "t2" 30).1.handler.tables typ =
          sampleStore.handler.tables typ) :=
  ⟨by decide, by decide, sampleStore_lookup, rfl,
    UpdateNamespaceToken_patch_frame sampleStore "ns1" "t2" sampleRecord 30 (by decide) (by decide)
      sampleStore_lookup rfl⟩

/-! ## Point lookup -/

/-- C3: when the handler lookup succeeds, `GetNamespace` returns `(nil, nil)` if no
record is stored under `name`, returns `(nil, nil)` if the stored record has
`Valid = false`, and returns a record `r` (with no error) exactly when `r` is the
record stored under `name` and its `Valid` flag is true. It never returns an error. -/
theorem GetNamespace_valid_only (n : namespaceStore) (name : String)
    (hok : n.handler.fault = none) :
    ((n.handler.tables tblNameNamespace).lookup name = none →
        n.GetNamespace name = (none, none)) ∧
    (∀ r, (n.handler.tables tblNameNamespace).lookup name = some r → r.Valid = false →
        n.GetNamespace name = (none, none)) ∧
    (∀ r, n.GetNamespace name = (some r, none) ↔
        ((n.handler.tables tblNameNamespace).lookup name = some r ∧ r.Valid = true)) ∧
    (n.GetNamespace name).2 = none := by
  obtain ⟨herr, hval⟩ := LoadValues_single n.handler tblNameNamespace name hok
  unfold namespaceStore.GetNamespace
  generalize n.handler.LoadValues tblNameNamespace [name] = res at herr hval
  obtain ⟨values, err⟩ := res
  simp only at herr hval
  subst herr
  simp only
  rw [hval]
  cases hl : (n.handler.tables tblNameNamespace).lookup name with
  | none => simp
  | some r0 =>
    cases hv : r0.Valid <;> simp [hv]

/-- C3 at `sampleStore`, whose handler has no failure pending. -/
theorem GetNamespace_valid_only_witness :
    sampleStore.handler.fault = none ∧
    ((sampleStore.handler.tables tblNameNamespace).lookup "ns1" = none →
        sampleStore.GetNamespace "ns1" = (none, none)) ∧
    (∀ r, (sampleStore.handler.tables tblNameNamespace).lookup "ns1" = some r → r.Valid = false →
        sampleStore.GetNamespace "ns1" = (none, none)) ∧
    (∀ r, sampleStore.GetNamespace "ns1" = (some r, none) ↔
        ((sampleStore.handler.tables tblNameNamespace).lookup "ns1" = some r ∧ r.Valid = true)) ∧
    (sampleStore.GetNamespace "ns1").2 = none :=
  ⟨rfl, GetNamespace_valid_only sampleStore "ns1" rfl⟩

/-! ## Validation of AddNamespace -/

/-- C4: `AddNamespace` returns its validation error if and only if `Name`, `Owner` or
`Token` is empty, and when it does the store is handed back as it was: the handler
received no call and no table changed. -/
theorem AddNamespace_validation (n : namespaceStore) (ns : Namespace) :
    ((∃ msg, (n.AddNamespace ns).2 = some (Error.validation msg)) ↔
        (ns.Name = "" ∨ ns.Owner = "" ∨ ns.Token = "")) ∧
    ((ns.Name = "" ∨ ns.Owner = "" ∨ ns.Token = "") →
        (n.AddNamespace ns).2 =
            some (Error.validation "store add namespace some param are empty") ∧
          (n.AddNamespace ns).1 = n ∧
          (n.AddNamespace ns).1.handler.writes = n.handler.writes ∧
          (n.AddNamespace ns).1.handler.tables = n.handler.tables) := by
  by_cases h : ns.Name = "" ∨ ns.Owner = "" ∨ ns.Token = ""
  · simp [namespaceStore.AddNamespace, h]
  · simp only [namespaceStore.AddNamespace, h, if_false, iff_false, false_imp_iff, and_true]
    rintro ⟨msg, hmsg⟩
    cases hf : n.handler.fault <;> simp [BoltHandler.SaveValue, hf] at hmsg

/-! ## Incremental sync -/

/-- C5: when the scan succeeds, `GetMoreNamespaces mtime` returns, with no error, one
entry for each key whose stored record has `ModifyTime` strictly after `mtime`
(the entry is that record, and each such key is listed once), and nothing else:
a record is in the result exactly when it is stored with `ModifyTime > mtime`,
so no record with `ModifyTime` equal to or before `mtime` appears. -/
theorem GetMoreNamespaces_strictly_after (n : namespaceStore) (mtime : Time)
    (hok : n.handler.fault = none) :
    ∃ (result : List Namespace) (keys : List String),
      n.GetMoreNamespaces mtime = some (result, none) ∧
      keys.Nodup ∧
      (∀ k, k ∈ keys ↔
        ∃ r, (n.handler.tables tblNameNamespace).lookup k = some r ∧ mtime < r.ModifyTime) ∧
      result.map some = keys.map (fun k => (n.handler.tables tblNameNamespace).lookup k) ∧
      (∀ r, r ∈ result ↔
        ∃ k, (n.handler.tables tblNameNamespace).lookup k = some r ∧ mtime < r.ModifyTime) ∧
      (∀ r, r ∈ result → ¬ r.ModifyTime ≤ mtime) := by
  refine ⟨_, ((n.handler.tables tblNameNamespace).select
      (fun ns => Time.After ns.ModifyTime mtime)).keys, GetMoreNamespaces_of_ok n mtime hok,
    AList.keys_nodup _, ?_, toNamespaces_select_by_keys _ _, ?_, ?_⟩
  · intro k
    simp [mem_select_keys, Time.After]
  · intro r
    simp [mem_toNamespaces_select, Time.After]
  · intro r hr
    obtain ⟨k, _, hlt⟩ := (mem_toNamespaces_select _ _ r).mp hr
    simpa [Time.After] using hlt

/-- C5 at `sampleStore` with cursor 7: the record of "ns1" (ModifyTime 10) qualifies. -/
theorem GetMoreNamespaces_strictly_after_witness :
    sampleStore.handler.fault = none ∧
    ∃ (result : List Namespace) (keys : List String),
      sampleStore.GetMoreNamespaces 7 = some (result, none) ∧
      keys.Nodup ∧
      (∀ k, k ∈ keys ↔
        ∃ r, (sampleStore.handler.tables tblNameNamespace).lookup k = some r ∧
          (7 : Time) < r.ModifyTime) ∧
      result.map some =
        keys.map (fun k => (sampleStore.handler.tables tblNameNamespace).lookup k) ∧
      (∀ r, r ∈ result ↔
        ∃ k, (sampleStore.handler.tables tblNameNamespace).lookup k = some r ∧
          (7 : Time) < r.ModifyTime) ∧
      (∀ r, r ∈ result → ¬ r.ModifyTime ≤ (7 : Time)) :=
  ⟨rfl, GetMoreNamespaces_strictly_after sampleStore 7 rfl⟩

/-- C6: when `GetMoreNamespaces mtime` returns a non-empty result `R` with no error,
the greatest `ModifyTime` in `R` is the `ModifyTime` of a record of `R`, and
calling `GetMoreNamespaces` with it on the same store returns none of the
records of `R`: it returns the empty result, with no error. -/
theorem GetMoreNamespaces_cursor_converges (n : namespaceStore) (mtime : Time)
    (R : List Namespace) (hR : n.GetMoreNamespaces mtime = some (R, none)) (hne : R ≠ []) :
    (∃ r, r ∈ R ∧ r.ModifyTime = maxModifyTime R) ∧
    (∃ R2, n.GetMoreNamespaces (maxModifyTime R) = some (R2, none) ∧
      (∀ r, r ∈ R → r ∉ R2)) ∧
    n.GetMoreNamespaces (maxModifyTime R) = some ([], none) := by
  have hok : n.handler.fault = none := by
    cases hf : n.handler.fault with
    | none => rfl
    | some e =>
      simp [namespaceStore.GetMoreNamespaces, BoltHandler.LoadValuesByFilter, hf] at hR
  have hR1 := GetMoreNamespaces_of_ok n mtime hok
  rw [hR] at hR1
  have hRe : R = toNamespaces ((n.handler.tables tblNameNamespace).select
      (fun ns => Time.After ns.ModifyTime mtime)) := by
    simpa using hR1
  obtain ⟨r0, hr0, hr0e⟩ := maxModifyTime_attained R hne
  have hlt : mtime < maxModifyTime R := by
    have h0 : r0 ∈ toNamespaces ((n.handler.tables tblNameNamespace).select
        (fun ns => Time.After ns.ModifyTime mtime)) := hRe ▸ hr0
    obtain ⟨k, _, hk⟩ := (mem_toNamespaces_select _ _ r0).mp h0
    have : mtime < r0.ModifyTime := by simpa [Time.After] using hk
    rw [← hr0e]
    exact this
  have hempty : toNamespaces ((n.handler.tables tblNameNamespace).select
      (fun ns => Time.After ns.ModifyTime (maxModifyTime R))) = [] := by
    apply List.eq_nil_iff_forall_not_mem.mpr
    intro r hr
    obtain ⟨k, hk, hgt⟩ := (mem_toNamespaces_select _ _ r).mp hr
    have hgt2 : maxModifyTime R < r.ModifyTime := by simpa [Time.After] using hgt
    have hin : r ∈ R := by
      rw [hRe]
      refine (mem_toNamespaces_select _ _ r).mpr ⟨k, hk, ?_⟩
      simpa [Time.After] using lt_trans hlt hgt2
    exact absurd (le_maxModifyTime R r hin) (not_le.mpr hgt2)
  have h2 := GetMoreNamespaces_of_ok n (maxModifyTime R) hok
  rw [hempty] at h2
  exact ⟨⟨r0, hr0, hr0e⟩, ⟨[], h2, fun r _ => List.not_mem_nil r⟩, h2⟩

theorem sampleStore_GetMoreNamespaces :
    sampleStore.GetMoreNamespaces 7 = some ([sampleRecord], none) := by
  rw [GetMoreNamespaces_of_ok sampleStore 7 rfl]
  simp [toNamespaces, Table.select, sampleStore, tblNameNamespace, AList.singleton, sampleRecord,
    Time.After]

/-- C6 at `sampleStore` with cursor 7: the first result is the record of "ns1". -/
theorem GetMoreNamespaces_cursor_converges_witness :
    sampleStore.GetMoreNamespaces 7 = some ([sampleRecord], none) ∧
    [sampleRecord] ≠ [] ∧
    (∃ r, r ∈ [sampleRecord] ∧ r.ModifyTime = maxModifyTime [sampleRecord]) ∧
    (∃ R2, sampleStore.GetMoreNamespaces (maxModifyTime [sampleRecord]) = some (R2, none) ∧
      (∀ r, r ∈ [sampleRecord] → r ∉ R2)) ∧
    sampleStore.GetMoreNamespaces (maxModifyTime [sampleRecord]) = some ([], none) :=
  ⟨sampleStore_GetMoreNamespaces, by simp,
    GetMoreNamespaces_cursor_converges sampleStore 7 [sampleRecord]
      sampleStore_GetMoreNamespaces (by simp)⟩

/-! ## Pagination -/

/-- C7, as the code has it: for `offset ≥ 0` and `limit ≥ 0` whose product and sum
`offset*limit + limit` stay below `2^63` (no wrap-around of `int`), when the scan
succeeds `GetNamespaces` returns no error, count 0, and the page
`[start, end)` of an arrangement of the stored records that is sorted by
`ModifyTime` descending, with `start = offset*limit` and
`end = min (start+limit) N`; for `start ≥ N` the page is empty; consecutive
elements of the page have non-increasing `ModifyTime`. -/
theorem GetNamespaces_page_of_sorted (n : namespaceStore)
    (filter : AList (fun _ : String => List String)) (offset limit : Int)
    (hoff : 0 ≤ offset) (hlim : 0 ≤ limit) (hfit : offset * limit + limit < 2 ^ 63)
    (hok : n.handler.fault = none) :
    ∃ (arranged page : List Namespace),
      arranged.Perm (toNamespaces (n.handler.tables tblNameNamespace)) ∧
      arranged.Sorted (fun a b => b.ModifyTime ≤ a.ModifyTime) ∧
      n.GetNamespaces filter offset limit = some (page, 0, none) ∧
      page = (arranged.drop (offset * limit).toNat).take
        ((min (offset * limit + limit) (arranged.length : Int)).toNat - (offset * limit).toNat) ∧
      ((arranged.length : Int) ≤ offset * limit → page = []) ∧
      page.Chain' (fun a b => b.ModifyTime ≤ a.ModifyTime) := by
  have hprod : 0 ≤ offset * limit := mul_nonneg hoff hlim
  have hstart : wrapInt (offset * limit) = offset * limit :=
    wrapInt_of_inRange _ hprod (by omega)
  have hend : wrapInt (offset * limit + limit) = offset * limit + limit :=
    wrapInt_of_inRange _ (by omega) hfit
  have hsorted := sort_Reverse_sorted (toNamespaces (n.handler.tables tblNameNamespace))
  have hpage : ∀ k m : Nat,
      (((sort.Sort (sort.Reverse NamespaceSlice.Less)
        (toNamespaces (n.handler.tables tblNameNamespace))).drop k).take m).Chain'
          (fun a b => b.ModifyTime ≤ a.ModifyTime) := by
    intro k m
    apply List.Pairwise.chain'
    exact (hsorted.sublist (List.drop_sublist k _)).sublist (List.take_sublist m _)
  refine ⟨sort.Sort (sort.Reverse NamespaceSlice.Less)
      (toNamespaces (n.handler.tables tblNameNamespace)), _,
    sort_Reverse_perm _, hsorted, ?_, rfl, ?_, hpage _ _⟩
  · unfold namespaceStore.GetNamespaces
    rw [LoadValuesAll_of_ok _ _ hok]
    simp only [hstart, hend]
    generalize sort.Sort (sort.Reverse NamespaceSlice.Less)
      (toNamespaces (n.handler.tables tblNameNamespace)) = arranged
    generalize offset * limit = start at hprod hfit
    by_cases hge : start ≥ (arranged.length : Int)
    · have hdrop : arranged.drop start.toNat = [] := by
        apply List.drop_eq_nil_of_le
        omega
      simp [hge, hdrop]
    · by_cases hgt : start + limit > (arranged.length : Int)
      · have hmin : min (start + limit) (arranged.length : Int) = (arranged.length : Int) := by
          omega
        simp only [hge, hgt, if_true, if_false, hmin]
        have hcond : 0 ≤ start ∧ start ≤ (arranged.length : Int) ∧
            (arranged.length : Int) ≤ (arranged.length : Int) := by omega
        simp [sliceExpr, hcond]
      · have hmin : min (start + limit) (arranged.length : Int) = start + limit := by
          omega
        simp only [hge, hgt, if_false, hmin]
        have hcond : 0 ≤ start ∧ start ≤ start + limit ∧
            start + limit ≤ (arranged.length : Int) := by omega
        simp [sliceExpr, hcond]
  · intro hle
    apply List.take_eq_nil_of_eq_nil
    apply List.drop_eq_nil_of_le
    omega

/-- C7 at `sampleStore`, first page of size 10. -/
theorem GetNamespaces_page_of_sorted_witness :
    (0 : Int) ≤ 0 ∧ (0 : Int) ≤ 10 ∧ (0 : Int) * 10 + 10 < 2 ^ 63 ∧
    sampleStore.handler.fault = none ∧
    ∃ (arranged page : List Namespace),
      arranged.Perm (toNamespaces (sampleStore.handler.tables tblNameNamespace)) ∧
      arranged.Sorted (fun a b => b.ModifyTime ≤ a.ModifyTime) ∧
      sampleStore.GetNamespaces ∅ 0 10 = some (page, 0, none) ∧
      page = (arranged.drop ((0 : Int) * 10).toNat).take
        ((min ((0 : Int) * 10 + 10) (arranged.length : Int)).toNat - ((0 : Int) * 10).toNat) ∧
      ((arranged.length : Int) ≤ (0 : Int) * 10 → page = []) ∧
      page.Chain' (fun a b => b.ModifyTime ≤ a.ModifyTime) :=
  ⟨by decide, by decide, by decide, rfl,
    GetNamespaces_page_of_sorted sampleStore ∅ 0 10 (by decide) (by decide) (by decide) rfl⟩

/-- C7 as stated fails once `offset*limit` wraps around: on a table of one record,
`offset = limit = 2^32` are non-negative and `offset*limit = 2^64 ≥ 1`, so the
claim promises an empty page, but the `int` product is 0 and the page returned
holds the record; with `offset = 2^62`, `limit = 2` the product wraps to a
negative start index and the slice expression panics instead of returning. -/
theorem GetNamespaces_page_wraps :
    (0 : Int) ≤ 2 ^ 32 ∧
    sampleStore.handler.fault = none ∧
    ((toNamespaces (sampleStore.handler.tables tblNameNamespace)).length : Int)
      ≤ (2 ^ 32 : Int) * 2 ^ 32 ∧
    sampleStore.GetNamespaces ∅ (2 ^ 32) (2 ^ 32) = some ([sampleRecord], 0, none) ∧
    (0 : Int) ≤ 2 ^ 62 ∧ (2 ^ 62 : Int) < 2 ^ 63 ∧
    sampleStore.GetNamespaces ∅ (2 ^ 62) 2 = none := by
  refine ⟨by decide, rfl, by decide, by decide, by decide, by decide, by decide⟩

/-! ## Listing by owner -/

/-- C8: `ListNamespaces ""` fails with the validation error. For a non-empty `owner`,
when the scan succeeds, the result has one entry for each key whose stored
record has an `Owner` containing `owner` as a substring (listed once, the entry
being that record) and nothing else; in particular a stored record whose
`Owner` equals, starts with, ends with or strictly contains `owner` is
returned, and a record whose `Owner` does not contain `owner` is not. -/
theorem ListNamespaces_owner_substring (n : namespaceStore) (owner : String)
    (howner : owner ≠ "") (hok : n.handler.fault = none) :
    n.ListNamespaces "" =
      some ([], some (Error.validation "store lst namespaces owner is empty")) ∧
    ∃ (result : List Namespace) (keys : List String),
      n.ListNamespaces owner = some (result, none) ∧
      keys.Nodup ∧
      (∀ k, k ∈ keys ↔
        ∃ r, (n.handler.tables tblNameNamespace).lookup k = some r ∧
          ∃ pre post : String, r.Owner = pre ++ owner ++ post) ∧
      result.map some = keys.map (fun k => (n.handler.tables tblNameNamespace).lookup k) ∧
      (∀ r, r ∈ result ↔
        ∃ k, (n.handler.tables tblNameNamespace).lookup k = some r ∧
          ∃ pre post : String, r.Owner = pre ++ owner ++ post) ∧
      (∀ k r, (n.handler.tables tblNameNamespace).lookup k = some r →
        (r.Owner = owner ∨ (∃ post : String, r.Owner = owner ++ post) ∨
          (∃ pre : String, r.Owner = pre ++ owner) ∨
          (∃ pre post : String, r.Owner = pre ++ owner ++ post)) → r ∈ result) ∧
      (∀ r, (¬ ∃ pre post : String, r.Owner = pre ++ owner ++ post) → r ∉ result) := by
  have hmem : ∀ r, r ∈ toNamespaces ((n.handler.tables tblNameNamespace).select
        (fun ns => strings.Contains ns.Owner owner)) ↔
      ∃ k, (n.handler.tables tblNameNamespace).lookup k = some r ∧
        ∃ pre post : String, r.Owner = pre ++ owner ++ post := by
    intro r
    simp only [mem_toNamespaces_select, strings_Contains_iff]
  refine ⟨by simp [namespaceStore.ListNamespaces], _,
    ((n.handler.tables tblNameNamespace).select
      (fun ns => strings.Contains ns.Owner owner)).keys,
    ListNamespaces_of_ok n owner howner hok, AList.keys_nodup _, ?_,
    toNamespaces_select_by_keys _ _, hmem, ?_, ?_⟩
  · intro k
    simp only [mem_select_keys, strings_Contains_iff]
  · intro k r hk hcases
    refine (hmem r).mpr ⟨k, hk, ?_⟩
    rcases hcases with h | ⟨post, h⟩ | ⟨pre, h⟩ | h
    · exact ⟨"", "", by simp [h]⟩
    · exact ⟨"", post, by simp [h]⟩
    · exact ⟨pre, "", by simp [h]⟩
    · exact h
  · intro r hno hr
    obtain ⟨k, _, hc⟩ := (hmem r).mp hr
    exact hno hc

/-- C8 at `sampleStore` with owner "team": "teamA" starts with "team". -/
theorem ListNamespaces_owner_substring_witness :
    ("team" : String) ≠ "" ∧ sampleStore.handler.fault = none ∧
    sampleStore.ListNamespaces "" =
      some ([], some (Error.validation "store lst namespaces owner is empty")) ∧
    ∃ (result : List Namespace) (keys : List String),
      sampleStore.ListNamespaces "team" = some (result, none) ∧
      keys.Nodup ∧
      (∀ k, k ∈ keys ↔
        ∃ r, (sampleStore.handler.tables tblNameNamespace).lookup k = some r ∧
          ∃ pre post : String, r.Owner = pre ++ "team" ++ post) ∧
      result.map some =
        keys.map (fun k => (sampleStore.handler.tables tblNameNamespace).lookup k) ∧
      (∀ r, r ∈ result ↔
        ∃ k, (sampleStore.handler.tables tblNameNamespace).lookup k = some r ∧
          ∃ pre post : String, r.Owner = pre ++ "team" ++ post) ∧
      (∀ k r, (sampleStore.handler.tables tblNameNamespace).lookup k = some r →
        (r.Owner = "team" ∨ (∃ post : String, r.Owner = "team" ++ post) ∨
          (∃ pre : String, r.Owner = pre ++ "team") ∨
          (∃ pre post : String, r.Owner = pre ++ "team" ++ post)) → r ∈ result) ∧
      (∀ r, (¬ ∃ pre post : String, r.Owner = pre ++ "team" ++ post) → r ∉ result) :=
  ⟨by decide, rfl, ListNamespaces_owner_substring sampleStore "team" (by decide) rfl⟩

/-! ## Writing and reading back -/

/-- C9, as the code has it: after `AddNamespace ns` succeeds on any store,
`GetNamespace ns.Name` reports no error and returns `ns` itself when the caller
set `ns.Valid` (the returned namespace then has `Valid` true); when `ns.Valid` is
false, as in an entity built from Name, Owner and Token only, it returns the
empty result. The record stored under `ns.Name` is `ns` in both cases. -/
theorem AddNamespace_then_GetNamespace (n : namespaceStore) (ns : Namespace)
    (hadd : (n.AddNamespace ns).2 = none) :
    ((n.AddNamespace ns).1.handler.tables tblNameNamespace).lookup ns.Name = some ns ∧
    (ns.Valid = true → (n.AddNamespace ns).1.GetNamespace ns.Name = (some ns, none)) ∧
    (ns.Valid = false → (n.AddNamespace ns).1.GetNamespace ns.Name = (none, none)) := by
  obtain ⟨hName, hOwner, hToken, hok⟩ := AddNamespace_success_inv n ns hadd
  have hstate := AddNamespace_of_ok n ns hName hOwner hToken hok
  have hok2 : (n.AddNamespace ns).1.handler.fault = none := by
    rw [hstate]
    exact hok
  have hlook : ((n.AddNamespace ns).1.handler.tables tblNameNamespace).lookup ns.Name =
      some ns := by
    rw [hstate]
    simp
  refine ⟨hlook, ?_, ?_⟩
  · intro hv
    rw [GetNamespace_of_ok _ _ hok2, hlook]
    simp [hv]
  · intro hv
    rw [GetNamespace_of_ok _ _ hok2, hlook]
    simp [hv]

/-- C9 at `emptyStore` with the scenario entity, Valid set by the caller. -/
theorem AddNamespace_then_GetNamespace_witness :
    (emptyStore.AddNamespace sampleNewValid).2 = none ∧
    ((emptyStore.AddNamespace sampleNewValid).1.handler.tables tblNameNamespace).lookup
      sampleNewValid.Name = some sampleNewValid ∧
    (sampleNewValid.Valid = true →
      (emptyStore.AddNamespace sampleNewValid).1.GetNamespace sampleNewValid.Name =
        (some sampleNewValid, none)) ∧
    (sampleNewValid.Valid = false →
      (emptyStore.AddNamespace sampleNewValid).1.GetNamespace sampleNewValid.Name =
        (none, none)) :=
  ⟨by decide, AddNamespace_then_GetNamespace emptyStore sampleNewValid (by decide)⟩

/-- C9 as stated fails at its own witness: `{Name:"ns1", Owner:"teamA", Token:"t1"}`
with every other field at its default is stored as it is, with `Valid` false,
so after the successful `AddNamespace` the lookup `GetNamespace "ns1"` returns
`(nil, nil)` rather than the namespace. -/
theorem AddNamespace_default_entity_not_returned :
    sampleNew.Name ≠ "" ∧ sampleNew.Owner ≠ "" ∧ sampleNew.Token ≠ "" ∧
    (emptyStore.AddNamespace sampleNew).2 = none ∧
    ((emptyStore.AddNamespace sampleNew).1.handler.tables tblNameNamespace).lookup "ns1" =
      some sampleNew ∧
    (emptyStore.AddNamespace sampleNew).1.GetNamespace "ns1" = (none, none) := by
  refine ⟨by decide, by decide, by decide, by decide, by decide, by decide⟩

/-- C10: for entities `a` and `b` with the same non-empty `Name` and non-empty `Owner`
and `Token`, with no storage failure, `AddNamespace a` followed by
`AddNamespace b` reports no error either time; afterwards table "namespace"
holds exactly one record under that name, which is `b`, every other key holds
what it held before, and every other table is unchanged. -/
theorem AddNamespace_twice_overwrites (n : namespaceStore) (a b : Namespace)
    (hsame : a.Name = b.Name) (hName : b.Name ≠ "")
    (haOwner : a.Owner ≠ "") (haToken : a.Token ≠ "")
    (hbOwner : b.Owner ≠ "") (hbToken : b.Token ≠ "")
    (hok : n.handler.fault = none) :
    (n.AddNamespace a).2 = none ∧
    ((n.AddNamespace a).1.AddNamespace b).2 = none ∧
    (((n.AddNamespace a).1.AddNamespace b).1.handler.tables tblNameNamespace).lookup b.Name =
      some b ∧
    (((n.AddNamespace a).1.AddNamespace b).1.handler.tables tblNameNamespace).keys.count
      b.Name = 1 ∧
    (∀ r, Sigma.mk b.Name r ∈
        (((n.AddNamespace a).1.AddNamespace b).1.handler.tables tblNameNamespace).entries →
      r = b) ∧
    (∀ k, k ≠ b.Name →
      (((n.AddNamespace a).1.AddNamespace b).1.handler.tables tblNameNamespace).lookup k =
        (n.handler.tables tblNameNamespace).lookup k) ∧
    (∀ typ, typ ≠ tblNameNamespace →
      ((n.AddNamespace a).1.AddNamespace b).1.handler.tables typ = n.handler.tables typ) := by
  have haName : a.Name ≠ "" := hsame ▸ hName
  have h1 := AddNamespace_of_ok n a haName haOwner haToken hok
  have hok1 : (n.AddNamespace a).1.handler.fault = none := by
    rw [h1]
    exact hok
  have h2 := AddNamespace_of_ok (n.AddNamespace a).1 b hName hbOwner hbToken hok1
  have hlook : (((n.AddNamespace a).1.AddNamespace b).1.handler.tables
      tblNameNamespace).lookup b.Name = some b := by
    rw [h2]
    simp
  refine ⟨by rw [h1], by rw [h2], hlook, ?_, ?_, ?_, ?_⟩
  · apply List.count_eq_one_of_mem (AList.keys_nodup _)
    rw [← AList.mem_keys, ← AList.lookup_isSome, hlook]
    rfl
  · intro r hr
    have := AList.mem_lookup_iff.mpr hr
    rw [hlook] at this
    exact (Option.some.inj this).symm
  · intro k hk
    have hka : k ≠ a.Name := hsame ▸ hk
    rw [h2, h1]
    simp [AList.lookup_insert_ne hk, AList.lookup_insert_ne hka]
  · intro typ htyp
    rw [h2, h1]
    simp [Function.update_noteq htyp]

/-- C10 at `sampleStore`: two writes under "ns1", the second one stays. -/
theorem AddNamespace_twice_overwrites_witness :
    sampleNewValid.Name = sampleNewer.Name ∧ sampleNewer.Name ≠ "" ∧
    sampleNewValid.Owner ≠ "" ∧ sampleNewValid.Token ≠ "" ∧
    sampleNewer.Owner ≠ "" ∧ sampleNewer.Token ≠ "" ∧
    sampleStore.handler.fault = none ∧
    (sampleStore.AddNamespace sampleNewValid).2 = none ∧
    ((sampleStore.AddNamespace sampleNewValid).1.AddNamespace sampleNewer).2 = none ∧
    (((sampleStore.AddNamespace sampleNewValid).1.AddNamespace sampleNewer).1.handler.tables
      tblNameNamespace).lookup sampleNewer.Name = some sampleNewer ∧
    (((sampleStore.AddNamespace sampleNewValid).1.AddNamespace sampleNewer).1.handler.tables
      tblNameNamespace).keys.count sampleNewer.Name = 1 ∧
    (∀ r, Sigma.mk sampleNewer.Name r ∈
        (((sampleStore.AddNamespace sampleNewValid).1.AddNamespace sampleNewer).1.handler.tables
          tblNameNamespace).entries →
      r = sampleNewer) ∧
    (∀ k, k ≠ sampleNewer.Name →
      (((sampleStore.AddNamespace sampleNewValid).1.AddNamespace sampleNewer).1.handler.tables
        tblNameNamespace).lookup k =
        (sampleStore.handler.tables tblNameNamespace).lookup k) ∧
    (∀ typ, typ ≠ tblNameNamespace →
      ((sampleStore.AddNamespace sampleNewValid).1.AddNamespace sampleNewer).1.handler.tables typ =
        sampleStore.handler.tables typ) :=
  ⟨by decide, by decide, by decide, by decide, by decide, by decide, rfl,
    AddNamespace_twice_overwrites sampleStore sampleNewValid sampleNewer (by decide) (by decide)
      (by decide) (by decide) (by decide) (by decide) rfl⟩

/-! ## Validation of the partial updates, and storage failures -/

/-- C11: `UpdateNamespace` returns its validation error if and only if `Name` or
`Owner` is empty (an empty `Comment` and an empty `Token` are accepted);
`UpdateNamespaceToken` returns its validation error if and only if `name` or
`token` is empty; whenever either one rejects, the store is handed back as it
was: the handler received no call and no table changed. -/
theorem Update_validation (n : namespaceStore) (ns : Namespace) (name token : String)
    (now : Time) :
    ((∃ msg, (n.UpdateNamespace ns now).2 = some (Error.validation msg)) ↔
        (ns.Name = "" ∨ ns.Owner = "")) ∧
    ((ns.Name = "" ∨ ns.Owner = "") →
        (n.UpdateNamespace ns now).2 =
            some (Error.validation "store update namespace some param are empty") ∧
          (n.UpdateNamespace ns now).1 = n ∧
          (n.UpdateNamespace ns now).1.handler.writes = n.handler.writes ∧
          (n.UpdateNamespace ns now).1.handler.tables = n.handler.tables) ∧
    ((ns.Name ≠ "" ∧ ns.Owner ≠ "") →
        ∀ comment tok : String,
          ¬ ∃ msg, (n.UpdateNamespace
            { Name := ns.Name, Comment := comment, Token := tok, Owner := ns.Owner,
              Valid := ns.Valid, CreateTime := ns.CreateTime, ModifyTime := ns.ModifyTime }
            now).2 = some (Error.validation msg)) ∧
    ((∃ msg, (n.UpdateNamespaceToken name token now).2 = some (Error.validation msg)) ↔
        (name = "" ∨ token = "")) ∧
    ((name = "" ∨ token = "") →
        (n.UpdateNamespaceToken name token now).2 =
            some (Error.validation "Update Namespace Token missing some params") ∧
          (n.UpdateNamespaceToken name token now).1 = n ∧
          (n.UpdateNamespaceToken name token now).1.handler.writes = n.handler.writes ∧
          (n.UpdateNamespaceToken name token now).1.handler.tables = n.handler.tables) := by
  have hupd : ∀ (key : String) (properties : Properties) (msg : String),
      (n.handler.UpdateValue tblNameNamespace key properties).2 ≠
        some (Error.validation msg) := by
    intro key properties msg
    unfold BoltHandler.UpdateValue
    cases hf : n.handler.fault with
    | some e => simp
    | none =>
      cases hl : (n.handler.tables tblNameNamespace).lookup key <;> simp [hl]
  refine ⟨?_, ?_, ?_, ?_, ?_⟩
  · by_cases h : ns.Name = "" ∨ ns.Owner = ""
    · simp [namespaceStore.UpdateNamespace, h]
    · simp only [namespaceStore.UpdateNamespace, h, if_false, iff_false]
      rintro ⟨msg, hmsg⟩
      exact hupd _ _ msg hmsg
  · intro h
    simp [namespaceStore.UpdateNamespace, h]
  · rintro ⟨h1, h2⟩ comment tok ⟨msg, hmsg⟩
    simp only [namespaceStore.UpdateNamespace, h1, h2, or_self, if_false] at hmsg
    exact hupd _ _ msg hmsg
  · by_cases h : name = "" ∨ token = ""
    · simp [namespaceStore.UpdateNamespaceToken, h]
    · simp only [namespaceStore.UpdateNamespaceToken, h, if_false, iff_false]
      rintro ⟨msg, hmsg⟩
      exact hupd _ _ msg hmsg
  · intro h
    simp [namespaceStore.UpdateNamespaceToken, h]

/-- C12: when the handler call of an operation runs into the storage failure `e`, each
of the seven operations, on an input that passes its validation, returns
exactly the handler's error for `e` and no records (`GetNamespaces` also count
0); the three writing operations made exactly one handler call and changed no
table. -/
theorem storage_failure_passes_through (n : namespaceStore) (e : Nat)
    (hf : n.handler.fault = some e) :
    (∀ ns : Namespace, ns.Name ≠ "" → ns.Owner ≠ "" → ns.Token ≠ "" →
      (n.handler.SaveValue tblNameNamespace ns.Name ns).2 = some (Error.storage e) ∧
      (n.AddNamespace ns).2 = some (Error.storage e) ∧
      (n.AddNamespace ns).1.handler.writes =
        n.handler.writes ++ [HandlerCall.SaveValue tblNameNamespace ns.Name ns] ∧
      (n.AddNamespace ns).1.handler.tables = n.handler.tables) ∧
    (∀ (ns : Namespace) (now : Time), ns.Name ≠ "" → ns.Owner ≠ "" →
      (n.UpdateNamespace ns now).2 = some (Error.storage e) ∧
      (∃ properties, (n.UpdateNamespace ns now).1.handler.writes =
        n.handler.writes ++ [HandlerCall.UpdateValue tblNameNamespace ns.Name properties]) ∧
      (n.UpdateNamespace ns now).1.handler.tables = n.handler.tables) ∧
    (∀ (name token : String) (now : Time), name ≠ "" → token ≠ "" →
      (n.UpdateNamespaceToken name token now).2 = some (Error.storage e) ∧
      (∃ properties, (n.UpdateNamespaceToken name token now).1.handler.writes =
        n.handler.writes ++ [HandlerCall.UpdateValue tblNameNamespace name properties]) ∧
      (n.UpdateNamespaceToken name token now).1.handler.tables = n.handler.tables) ∧
    (∀ name : String,
      (n.handler.LoadValues tblNameNamespace [name]).2 = some (Error.storage e) ∧
      n.GetNamespace name = (none, some (Error.storage e))) ∧
    (∀ owner : String, owner ≠ "" →
      n.ListNamespaces owner = some ([], some (Error.storage e))) ∧
    (∀ (filter : AList (fun _ : String => List String)) (offset limit : Int),
      (n.handler.LoadValuesAll tblNameNamespace).2 = some (Error.storage e) ∧
      n.GetNamespaces filter offset limit = some ([], 0, some (Error.storage e))) ∧
    (∀ mtime : Time, n.GetMoreNamespaces mtime = some ([], some (Error.storage e))) := by
  refine ⟨?_, ?_, ?_, ?_, ?_, ?_, ?_⟩
  · intro ns h1 h2 h3
    simp [namespaceStore.AddNamespace, BoltHandler.SaveValue, h1, h2, h3, hf]
  · intro ns now h1 h2
    simp [namespaceStore.UpdateNamespace, BoltHandler.UpdateValue, h1, h2, hf]
  · intro name token now h1 h2
    simp [namespaceStore.UpdateNamespaceToken, BoltHandler.UpdateValue, h1, h2, hf]
  · intro name
    simp [namespaceStore.GetNamespace, BoltHandler.LoadValues, hf]
  · intro owner h1
    simp [namespaceStore.ListNamespaces, BoltHandler.LoadValuesByFilter, h1, hf]
  · intro filter offset limit
    simp [namespaceStore.GetNamespaces, BoltHandler.LoadValuesAll, hf]
  · intro mtime
    simp [namespaceStore.GetMoreNamespaces, BoltHandler.LoadValuesByFilter, hf]

/-- C12 at `failingStore` (failure 7 pending): each of the seven operations hands the error up. -/
theorem storage_failure_passes_through_witness :
    failingStore.handler.fault = some 7 ∧
    (failingStore.AddNamespace sampleNew).2 = some (Error.storage 7) ∧
    (failingStore.UpdateNamespace sampleUpdate 20).2 = some (Error.storage 7) ∧
    (failingStore.UpdateNamespaceToken "ns1" "t2" 30).2 = some (Error.storage 7) ∧
    failingStore.GetNamespace "ns1" = (none, some (Error.storage 7)) ∧
    failingStore.ListNamespaces "team" = some ([], some (Error.storage 7)) ∧
    failingStore.GetNamespaces ∅ 0 10 = some ([], 0, some (Error.storage 7)) ∧
    failingStore.GetMoreNamespaces 7 = some ([], some (Error.storage 7)) :=
  ⟨rfl,
    ((storage_failure_passes_through failingStore 7 rfl).1 sampleNew
      (by decide) (by decide) (by decide)).2.1,
    ((storage_failure_passes_through failingStore 7 rfl).2.1 sampleUpdate 20
      (by decide) (by decide)).1,
    ((storage_failure_passes_through failingStore 7 rfl).2.2.1 "ns1" "t2" 30
      (by decide) (by decide)).1,
    ((storage_failure_passes_through failingStore 7 rfl).2.2.2.1 "ns1").2,
    (storage_failure_passes_through failingStore 7 rfl).2.2.2.2.1 "team" (by decide),
    ((storage_failure_passes_through failingStore 7 rfl).2.2.2.2.2.1 ∅ 0 10).2,
    (storage_failure_passes_through failingStore 7 rfl).2.2.2.2.2.2 7⟩

/-! ## The filter argument and the count -/

/-- C15: `GetNamespaces` does not consult its filter: for any two filter mappings the
call returns the same page, the same count and the same error (and panics for
the one exactly when it panics for the other). -/
theorem GetNamespaces_ignores_filter (n : namespaceStore)
    (f1 f2 : AList (fun _ : String => List String)) (offset limit : Int) :
    n.GetNamespaces f1 offset limit = n.GetNamespaces f2 offset limit := by
  unfold namespaceStore.GetNamespaces
  rfl

theorem sampleStore_GetNamespaces_first :
    sampleStore.GetNamespaces ∅ 0 10 = some ([sampleRecord], 0, none) := by
  decide

theorem sampleStore_GetNamespaces_beyond :
    sampleStore.GetNamespaces ∅ 3 10 = some ([], 0, none) := by
  decide

theorem failingStore_GetNamespaces :
    failingStore.GetNamespaces ∅ 0 10 = some ([], 0, some (Error.storage 7)) := by
  decide

/-- C16: whatever `GetNamespaces` returns, its count is 0, for every store, filter,
offset and limit: the call either panics in its slice expression or returns a
triple whose count is 0, and so does every one of its return paths (handler
error, start index at or beyond the end, page cut from the table). -/
theorem GetNamespaces_count_zero (n : namespaceStore)
    (filter : AList (fun _ : String => List String)) (offset limit : Int) :
    (n.GetNamespaces filter offset limit = none ∨
      ∃ page err, n.GetNamespaces filter offset limit = some (page, 0, err)) ∧
    (∀ page count err,
      n.GetNamespaces filter offset limit = some (page, count, err) → count = 0) ∧
    (∀ e, n.handler.fault = some e →
      n.GetNamespaces filter offset limit = some ([], 0, some (Error.storage e))) ∧
    (n.handler.fault = none →
      ((sort.Sort (sort.Reverse NamespaceSlice.Less)
          (toNamespaces (n.handler.tables tblNameNamespace))).length : Int)
        ≤ wrapInt (offset * limit) →
      n.GetNamespaces filter offset limit = some ([], 0, none)) := by
  have hall : ∀ page count err,
      n.GetNamespaces filter offset limit = some (page, count, err) → count = 0 := by
    intro page count err hret
    unfold namespaceStore.GetNamespaces at hret
    split at hret
    · simp only [Option.some.injEq, Prod.mk.injEq] at hret
      exact hret.2.1.symm
    · simp only at hret
      split at hret
      · simp only [Option.some.injEq, Prod.mk.injEq] at hret
        exact hret.2.1.symm
      · split at hret
        · exact absurd hret (by simp)
        · simp only [Option.some.injEq, Prod.mk.injEq] at hret
          exact hret.2.1.symm
  refine ⟨?_, hall, ?_, ?_⟩
  · cases hr : n.GetNamespaces filter offset limit with
    | none => exact Or.inl rfl
    | some r =>
      obtain ⟨page, count, err⟩ := r
      have h0 := hall page count err hr
      subst h0
      exact Or.inr ⟨page, err, rfl⟩
  · intro e hf
    simp [namespaceStore.GetNamespaces, BoltHandler.LoadValuesAll, hf]
  · intro hok hge
    unfold namespaceStore.GetNamespaces
    rw [LoadValuesAll_of_ok _ _ hok]
    simp only
    rw [if_pos hge]

/-! ## Listing and the Valid flag -/

theorem deletedStore_lookup :
    (deletedStore.handler.tables tblNameNamespace).lookup "ns2" = some deletedRecord := by
  simp [deletedStore, tblNameNamespace]

theorem deletedStore_ListNamespaces :
    deletedStore.ListNamespaces "team" = some ([deletedRecord], none) := by
  rw [ListNamespaces_of_ok deletedStore "team" (by decide) rfl]
  have h : strings.Contains "teamA" "team" = true :=
    (strings_Contains_iff _ _).mpr ⟨"", "A", by decide⟩
  simp [toNamespaces, Table.select, deletedStore, tblNameNamespace, AList.singleton,
    deletedRecord, h]

/-- C17: `ListNamespaces` does not look at `Valid`: for a non-empty `owner` and a scan
that succeeds, every stored record whose `Owner` contains `owner` is in the
result, nothing being asked of its `Valid` flag; and there is a store
(`deletedStore`) where `ListNamespaces` returns a record with `Valid = false`
whose name `GetNamespace` reports as not found. -/
theorem ListNamespaces_ignores_Valid (n : namespaceStore) (owner k : String) (r : Namespace)
    (howner : owner ≠ "") (hok : n.handler.fault = none)
    (hrec : (n.handler.tables tblNameNamespace).lookup k = some r)
    (hcontains : ∃ pre post : String, r.Owner = pre ++ owner ++ post) :
    (∃ result, n.ListNamespaces owner = some (result, none) ∧ r ∈ result) ∧
    (∃ result, deletedStore.ListNamespaces "team" = some (result, none) ∧
      deletedRecord ∈ result ∧ deletedRecord.Valid = false ∧
      deletedStore.GetNamespace deletedRecord.Name = (none, none)) := by
  constructor
  · refine ⟨_, ListNamespaces_of_ok n owner howner hok, ?_⟩
    exact (mem_toNamespaces_select _ _ r).mpr
      ⟨k, hrec, (strings_Contains_iff _ _).mpr hcontains⟩
  · refine ⟨[deletedRecord], deletedStore_ListNamespaces, List.mem_singleton.mpr rfl, rfl, ?_⟩
    rw [GetNamespace_of_ok deletedStore _ rfl]
    have hl : (deletedStore.handler.tables tblNameNamespace).lookup deletedRecord.Name =
        some deletedRecord := deletedStore_lookup
    rw [hl]
    rfl

/-- C17 at `deletedStore` with owner "team": the deleted record of "ns2" is listed. -/
theorem ListNamespaces_ignores_Valid_witness :
    ("team" : String) ≠ "" ∧ deletedStore.handler.fault = none ∧
    (deletedStore.handler.tables tblNameNamespace).lookup "ns2" = some deletedRecord ∧
    (∃ pre post : String, deletedRecord.Owner = pre ++ "team" ++ post) ∧
    (∃ result, deletedStore.ListNamespaces "team" = some (result, none) ∧
      deletedRecord ∈ result) ∧
    (∃ result, deletedStore.ListNamespaces "team" = some (result, none) ∧
      deletedRecord ∈ result ∧ deletedRecord.Valid = false ∧
      deletedStore.GetNamespace deletedRecord.Name = (none, none)) :=
  ⟨by decide, rfl, deletedStore_lookup, ⟨"", "A", by decide⟩,
    ListNamespaces_ignores_Valid deletedStore "team" "ns2" deletedRecord (by decide) rfl
      deletedStore_lookup ⟨"", "A", by decide⟩⟩

/-! ## Histories of mutating calls -/

/-- C13 as stated fails: in `regressingCalls` all three calls succeed and their
clock readings 10, 20, 30 do not decrease, yet the `ModifyTime` stored under
"ns1" goes 10, 20, 0: `AddNamespace` writes the entity's own `ModifyTime` and
does not read the clock, unlike the two update operations. -/
theorem AddNamespace_lowers_ModifyTime :
    (emptyStore.call (regressingCalls.get ⟨0, by decide⟩)).2 = none ∧
    ((emptyStore.run (regressingCalls.take 1)).call (regressingCalls.get ⟨1, by decide⟩)).2
      = none ∧
    ((emptyStore.run (regressingCalls.take 2)).call (regressingCalls.get ⟨2, by decide⟩)).2
      = none ∧
    (((emptyStore.run (regressingCalls.take 1)).handler.tables tblNameNamespace).lookup
      "ns1").map (fun r => r.ModifyTime) = some 10 ∧
    (((emptyStore.run (regressingCalls.take 2)).handler.tables tblNameNamespace).lookup
      "ns1").map (fun r => r.ModifyTime) = some 20 ∧
    (((emptyStore.run (regressingCalls.take 3)).handler.tables tblNameNamespace).lookup
      "ns1").map (fun r => r.ModifyTime) = some 0 := by
  refine ⟨by decide, by decide, by decide, by decide, by decide, by decide⟩

/-- C14: starting from an empty table "namespace", after any sequence of
`AddNamespace`, `UpdateNamespace` and `UpdateNamespaceToken` calls, accepted,
rejected or failed in the handler, every stored record has a non-empty `Name`,
a non-empty `Owner` and a non-empty `Token`. -/
theorem reachable_required_fields (n0 : namespaceStore)
    (hempty : n0.handler.tables tblNameNamespace = ∅) (calls : List Call) :
    ∀ k r, ((n0.run calls).handler.tables tblNameNamespace).lookup k = some r →
      r.Name ≠ "" ∧ r.Owner ≠ "" ∧ r.Token ≠ "" := by
  apply run_preserves
    (fun t => ∀ k r, t.lookup k = some r → r.Name ≠ "" ∧ r.Owner ≠ "" ∧ r.Token ≠ "")
    call_keeps_required calls n0
  intro k r hk
  rw [hempty, AList.lookup_empty] at hk
  cases hk

theorem emptyStore_table : emptyStore.handler.tables tblNameNamespace = ∅ := rfl

theorem emptyStore_no_record (k : String) (r : Namespace) :
    (emptyStore.handler.tables tblNameNamespace).lookup k ≠ some r := by
  rw [emptyStore_table, AList.lookup_empty]
  exact fun h => nomatch h

/-- C13, as the code has it: take a sequence of `AddNamespace`, `UpdateNamespace` and
`UpdateNamespaceToken` calls in which the `ModifyTime` each call writes (the
clock reading of an update, the `ModifyTime` of the entity handed to
`AddNamespace`) does not decrease along the sequence, on a store where no
stored `ModifyTime` exceeds them. Then at every step of the sequence and for
every key, the record stays stored and its `ModifyTime` does not decrease. -/
theorem ModifyTime_never_decreases (n0 : namespaceStore) (calls : List Call)
    (hclock : (calls.map (fun c => c.op.written)).Sorted (fun a b => a ≤ b))
    (hinit : ∀ k r, (n0.handler.tables tblNameNamespace).lookup k = some r →
      ∀ c, c ∈ calls → r.ModifyTime ≤ c.op.written) :
    ∀ (pre post : List Call) (c : Call), calls = pre ++ c :: post →
      ∀ k r, ((n0.run pre).handler.tables tblNameNamespace).lookup k = some r →
        ∃ r2, ((n0.run (pre ++ [c])).handler.tables tblNameNamespace).lookup k = some r2 ∧
          r.ModifyTime ≤ r2.ModifyTime := by
  intro pre post c hsplit k r hk
  have hsub : (pre ++ [c]).Sublist calls := by
    rw [hsplit]
    exact List.Sublist.append_left (List.Sublist.cons₂ c (List.nil_sublist post)) pre
  have hsorted : ((pre ++ [c]).map (fun d => d.op.written)).Sorted (fun a b => a ≤ b) :=
    List.Pairwise.sublist (List.Sublist.map _ hsub) hclock
  have hbound := run_ModifyTime_bound c pre n0 hsorted
    (fun k r hk d hd => hinit k r hk d (hsub.subset hd))
  have hrun : n0.run (pre ++ [c]) = ((n0.run pre).call c).1 := by
    simp [namespaceStore.run, List.foldl_append]
  rw [hrun]
  exact (call_ModifyTime_step (n0.run pre) c hbound).1 k r hk

/-- C13 at `emptyStore` with `stampedCalls`, whose creation carries its clock reading. -/
theorem ModifyTime_never_decreases_witness :
    (stampedCalls.map (fun c => c.op.written)).Sorted (fun a b => a ≤ b) ∧
    (∀ k r, (emptyStore.handler.tables tblNameNamespace).lookup k = some r →
      ∀ c, c ∈ stampedCalls → r.ModifyTime ≤ c.op.written) ∧
    (((emptyStore.run (stampedCalls.take 1)).handler.tables tblNameNamespace).lookup
      "ns1").map (fun r => r.ModifyTime) = some 10 ∧
    (((emptyStore.run (stampedCalls.take 2)).handler.tables tblNameNamespace).lookup
      "ns1").map (fun r => r.ModifyTime) = some 20 ∧
    (((emptyStore.run (stampedCalls.take 3)).handler.tables tblNameNamespace).lookup
      "ns1").map (fun r => r.ModifyTime) = some 30 ∧
    ∀ (pre post : List Call) (c : Call), stampedCalls = pre ++ c :: post →
      ∀ k r, ((emptyStore.run pre).handler.tables tblNameNamespace).lookup k = some r →
        ∃ r2, ((emptyStore.run (pre ++ [c])).handler.tables tblNameNamespace).lookup k =
            some r2 ∧
          r.ModifyTime ≤ r2.ModifyTime :=
  ⟨by decide, fun k r hk => absurd hk (emptyStore_no_record k r),
    by decide, by decide, by decide,
    ModifyTime_never_decreases emptyStore stampedCalls (by decide)
      (fun k r hk => absurd hk (emptyStore_no_record k r))⟩

theorem sampleCalls_result :
    ((emptyStore.run sampleCalls).handler.tables tblNameNamespace).lookup "ns1" =
      some { Name := "ns1", Comment := "c", Token := "t2", Owner := "teamB", Valid := true,
             CreateTime := 0, ModifyTime := 30 } := by
  decide

/-- C14 at `emptyStore` after `sampleCalls`, which leave one record under "ns1". -/
theorem reachable_required_fields_witness :
    emptyStore.handler.tables tblNameNamespace = ∅ ∧
    ((emptyStore.run sampleCalls).handler.tables tblNameNamespace).lookup "ns1" =
      some { Name := "ns1", Comment := "c", Token := "t2", Owner := "teamB", Valid := true,
             CreateTime := 0, ModifyTime := 30 } ∧
    ∀ k r, ((emptyStore.run sampleCalls).handler.tables tblNameNamespace).lookup k = some r →
      r.Name ≠ "" ∧ r.Owner ≠ "" ∧ r.Token ≠ "" :=
  ⟨emptyStore_table, sampleCalls_result,
    reachable_required_fields emptyStore emptyStore_table sampleCalls⟩

/-- C20: starting from an empty table "namespace", after any sequence of
`AddNamespace`, `UpdateNamespace` and `UpdateNamespaceToken` calls the record
stored under a key `k` has `Name = k`; hence whenever `GetNamespace name`
returns a record, the `Name` of that record is `name`. -/
theorem reachable_key_is_Name (n0 : namespaceStore)
    (hempty : n0.handler.tables tblNameNamespace = ∅) (calls : List Call) :
    (∀ k r, ((n0.run calls).handler.tables tblNameNamespace).lookup k = some r → r.Name = k) ∧
    (∀ name r err, (n0.run calls).GetNamespace name = (some r, err) → r.Name = name) := by
  have hinv : ∀ k r,
      ((n0.run calls).handler.tables tblNameNamespace).lookup k = some r → r.Name = k := by
    apply run_preserves (fun t => ∀ k r, t.lookup k = some r → r.Name = k)
      call_keeps_key_name calls n0
    intro k r hk
    rw [hempty, AList.lookup_empty] at hk
    cases hk
  refine ⟨hinv, ?_⟩
  intro name r err hget
  cases hf : (n0.run calls).handler.fault with
  | some e =>
    simp [namespaceStore.GetNamespace, BoltHandler.LoadValues, hf] at hget
  | none =>
    rw [GetNamespace_of_ok _ _ hf] at hget
    cases hl : ((n0.run calls).handler.tables tblNameNamespace).lookup name with
    | none =>
      rw [hl] at hget
      simp at hget
    | some ns =>
      rw [hl] at hget
      cases hv : ns.Valid
      · simp [hv] at hget
      · simp [hv] at hget
        rw [← hget.1]
        exact hinv name ns hl

/-- C20 at `emptyStore` after `sampleCalls`: the record returned for "ns1" is named "ns1". -/
theorem reachable_key_is_Name_witness :
    emptyStore.handler.tables tblNameNamespace = ∅ ∧
    (emptyStore.run sampleCalls).GetNamespace "ns1" =
      (some { Name := "ns1", Comment := "c", Token := "t2", Owner := "teamB", Valid := true,
              CreateTime := 0, ModifyTime := 30 }, none) ∧
    (∀ k r, ((emptyStore.run sampleCalls).handler.tables tblNameNamespace).lookup k = some r →
      r.Name = k) ∧
    (∀ name r err, (emptyStore.run sampleCalls).GetNamespace name = (some r, err) →
      r.Name = name) :=
  ⟨emptyStore_table, by decide, reachable_key_is_Name emptyStore emptyStore_table sampleCalls⟩

/-! ## Slice bounds and the pages of a table -/

/-- C18: for `offset ≥ 0` and `limit ≥ 0` whose product and sum `offset*limit + limit`
stay below `2^63`, whenever `GetNamespaces` reaches its slice expression (the
scan succeeded and `startIdx` is below the number `N` of records) the indices
satisfy `0 ≤ startIdx ≤ endIdx ≤ N`, the slice expression does not panic and
its value is the page returned. Non-negativity is needed: with `offset = 0`,
`limit = -1` and `N ≥ 1` the indices are `startIdx = 0` and `endIdx = -1`, and
the slice expression panics. -/
theorem GetNamespaces_slice_in_range (n : namespaceStore)
    (filter : AList (fun _ : String => List String)) (offset limit : Int)
    (hoff : 0 ≤ offset) (hlim : 0 ≤ limit) (hfit : offset * limit + limit < 2 ^ 63)
    (hok : n.handler.fault = none)
    (hreach : startIdx offset limit <
      ((n.handler.tables tblNameNamespace).entries.length : Int)) :
    (0 ≤ startIdx offset limit ∧
      startIdx offset limit ≤
        endIdx ((n.handler.tables tblNameNamespace).entries.length : Int) offset limit ∧
      endIdx ((n.handler.tables tblNameNamespace).entries.length : Int) offset limit ≤
        ((n.handler.tables tblNameNamespace).entries.length : Int)) ∧
    (∃ page,
      sliceExpr (sort.Sort (sort.Reverse NamespaceSlice.Less)
          (toNamespaces (n.handler.tables tblNameNamespace)))
        (startIdx offset limit)
        (endIdx ((n.handler.tables tblNameNamespace).entries.length : Int) offset limit)
        = some page ∧
      n.GetNamespaces filter offset limit = some (page, 0, none)) ∧
    (∀ m : namespaceStore, m.handler.fault = none →
      1 ≤ (m.handler.tables tblNameNamespace).entries.length →
      startIdx 0 (-1) = 0 ∧
      endIdx ((m.handler.tables tblNameNamespace).entries.length : Int) 0 (-1) = -1 ∧
      m.GetNamespaces filter 0 (-1) = none) := by
  have hprod : 0 ≤ offset * limit := mul_nonneg hoff hlim
  have hstart : startIdx offset limit = offset * limit :=
    wrapInt_of_inRange _ hprod (by omega)
  have hend : wrapInt (offset * limit + limit) = offset * limit + limit :=
    wrapInt_of_inRange _ (by omega) hfit
  have hbounds : 0 ≤ startIdx offset limit ∧
      startIdx offset limit ≤
        endIdx ((n.handler.tables tblNameNamespace).entries.length : Int) offset limit ∧
      endIdx ((n.handler.tables tblNameNamespace).entries.length : Int) offset limit ≤
        ((n.handler.tables tblNameNamespace).entries.length : Int) := by
    rw [hstart] at hreach
    simp only [endIdx, hstart, hend]
    split <;> omega
  have hm1 : wrapInt (-1) = -1 := by decide
  have hz : startIdx 0 (-1) = 0 := by decide
  refine ⟨hbounds, ?_, ?_⟩
  · have hslice : sliceExpr (sort.Sort (sort.Reverse NamespaceSlice.Less)
          (toNamespaces (n.handler.tables tblNameNamespace)))
        (startIdx offset limit)
        (endIdx ((n.handler.tables tblNameNamespace).entries.length : Int) offset limit) =
        some (((sort.Sort (sort.Reverse NamespaceSlice.Less)
          (toNamespaces (n.handler.tables tblNameNamespace))).drop
            (startIdx offset limit).toNat).take
          ((endIdx ((n.handler.tables tblNameNamespace).entries.length : Int)
            offset limit).toNat - (startIdx offset limit).toNat)) := by
      unfold sliceExpr
      rw [sorted_length, if_pos hbounds]
    refine ⟨_, hslice, ?_⟩
    rw [GetNamespaces_reaches_slice n filter offset limit hok hreach, hslice]
  · intro m hmok hN
    have hreach2 : startIdx 0 (-1) <
        ((m.handler.tables tblNameNamespace).entries.length : Int) := by
      rw [hz]
      omega
    have hendm : endIdx ((m.handler.tables tblNameNamespace).entries.length : Int) 0 (-1)
        = -1 := by
      simp only [endIdx, hz, zero_add, hm1]
      rw [if_neg (by omega)]
    refine ⟨hz, hendm, ?_⟩
    rw [GetNamespaces_reaches_slice m filter 0 (-1) hmok hreach2, hendm, hz]
    simp [sliceExpr]

/-- C18 at `sampleStore` (one record), first page of size 10. -/
theorem GetNamespaces_slice_in_range_witness :
    (0 : Int) ≤ 0 ∧ (0 : Int) ≤ 10 ∧ (0 : Int) * 10 + 10 < 2 ^ 63 ∧
    sampleStore.handler.fault = none ∧
    startIdx 0 10 < ((sampleStore.handler.tables tblNameNamespace).entries.length : Int) ∧
    (0 ≤ startIdx 0 10 ∧
      startIdx 0 10 ≤
        endIdx ((sampleStore.handler.tables tblNameNamespace).entries.length : Int) 0 10 ∧
      endIdx ((sampleStore.handler.tables tblNameNamespace).entries.length : Int) 0 10 ≤
        ((sampleStore.handler.tables tblNameNamespace).entries.length : Int)) ∧
    (∃ page,
      sliceExpr (sort.Sort (sort.Reverse NamespaceSlice.Less)
          (toNamespaces (sampleStore.handler.tables tblNameNamespace)))
        (startIdx 0 10)
        (endIdx ((sampleStore.handler.tables tblNameNamespace).entries.length : Int) 0 10)
        = some page ∧
      sampleStore.GetNamespaces ∅ 0 10 = some (page, 0, none)) ∧
    (∀ m : namespaceStore, m.handler.fault = none →
      1 ≤ (m.handler.tables tblNameNamespace).entries.length →
      startIdx 0 (-1) = 0 ∧
      endIdx ((m.handler.tables tblNameNamespace).entries.length : Int) 0 (-1) = -1 ∧
      m.GetNamespaces ∅ 0 (-1) = none) :=
  ⟨by decide, by decide, by decide, rfl, by decide,
    GetNamespaces_slice_in_range sampleStore ∅ 0 10 (by decide) (by decide) (by decide) rfl
      (by decide)⟩

/-- C19, as the code has it: let `arranged` be any arrangement of the records of a
table, in particular any `ModifyTime`-descending one, of length `N < 2^62`, and
let `0 < limit < 2^63`. The pages `GetNamespaces` cuts from `arranged` for
`offset = 0, …, ⌈N/limit⌉ - 1` concatenate in order to `arranged`, so the record
at position `j` lies on page `j / limit` at position `j % limit`; every page
but the last has exactly `limit` records; and a page with
`offset ≥ ⌈N/limit⌉` is empty provided the product `offset*limit` stays below
`2^63`. A call of `GetNamespaces` whose sorted slice is `arranged` returns
exactly the page cut from `arranged`. -/
theorem GetNamespaces_pages_partition (arranged : List Namespace) (limit : Int)
    (hpos : 0 < limit) (hlimit : limit < 2 ^ 63) (hN : arranged.length < 2 ^ 62) :
    (∃ pages : List (List Namespace),
      pages.length = (arranged.length + limit.toNat - 1) / limit.toNat ∧
      (∀ (i : Nat) (hi : i < pages.length),
        GetNamespaces.page arranged (i : Int) limit = some (pages.get ⟨i, hi⟩, 0, none)) ∧
      pages.flatten = arranged ∧
      (∀ (i : Nat) (hi : i < pages.length), i + 1 < pages.length →
        (pages.get ⟨i, hi⟩).length = limit.toNat) ∧
      (∀ j, j < arranged.length →
        ∃ hi : j / limit.toNat < pages.length,
          (pages.get ⟨j / limit.toNat, hi⟩)[j % limit.toNat]? = arranged[j]?) ∧
      (∀ offset : Int, (pages.length : Int) ≤ offset → offset * limit < 2 ^ 63 →
        GetNamespaces.page arranged offset limit = some ([], 0, none))) ∧
    (∀ (n : namespaceStore) (filter : AList (fun _ : String => List String)) (offset : Int),
      n.handler.fault = none →
      sort.Sort (sort.Reverse NamespaceSlice.Less)
        (toNamespaces (n.handler.tables tblNameNamespace)) = arranged →
      n.GetNamespaces filter offset limit = GetNamespaces.page arranged offset limit) := by
  refine ⟨?_, fun n filter offset hok harr => harr ▸ GetNamespaces_eq_page n filter offset limit hok⟩
  obtain ⟨L, rfl⟩ := Int.eq_ofNat_of_zero_le hpos.le
  have hL : 0 < L := by exact_mod_cast hpos
  simp only [Int.toNat_ofNat]
  have hexact := fun (offset : Int) (h0 : 0 ≤ offset) (h1 : offset * (L : Int) + L < 2 ^ 63) =>
    page_exact arranged offset L h0 hpos.le h1
  simp only [Int.toNat_ofNat] at hexact
  obtain ⟨hcover, hinside⟩ := pages_arith arranged.length L hL
  have hpage : ∀ i : Nat, i < (arranged.length + L - 1) / L →
      GetNamespaces.page arranged (i : Int) (L : Int) =
        some ((arranged.drop (i * L)).take L, 0, none) := by
    intro i hi
    have hin := hinside i hi
    have hfit : (i : Int) * (L : Int) + L < 2 ^ 63 := by
      have hcast : ((i * L + L : Nat) : Int) = (i : Int) * (L : Int) + L := by push_cast; ring
      rw [← hcast]
      have : i * L + L < 2 ^ 63 := by
        rcases Nat.eq_zero_or_pos i with h0 | hp
        · subst h0
          have : (L : Int) < 2 ^ 63 := hlimit
          have : L < 2 ^ 63 := by exact_mod_cast this
          omega
        · have hLle : L ≤ i * L := Nat.le_mul_of_pos_left L hp
          have : (2 : Nat) ^ 63 = 2 * 2 ^ 62 := by norm_num
          omega
      exact_mod_cast this
    rw [hexact (i : Int) (Int.natCast_nonneg i) hfit]
    have hto : ((i : Int) * (L : Int)).toNat = i * L := by
      rw [← Nat.cast_mul, Int.toNat_ofNat]
    rw [hto]
  refine ⟨(List.range ((arranged.length + L - 1) / L)).map
      (fun i => (arranged.drop (i * L)).take L), ?_, ?_, ?_, ?_, ?_, ?_⟩
  · simp
  · intro i hi
    have hi2 : i < (arranged.length + L - 1) / L := by simpa using hi
    rw [hpage i hi2]
    simp
  · exact pieces_join L _ arranged hcover
  · intro i hi hnext
    have hnext2 : i + 1 < (arranged.length + L - 1) / L := by simpa using hnext
    have h := hinside (i + 1) hnext2
    rw [Nat.succ_mul] at h
    simp only [List.get_eq_getElem, List.getElem_map, List.getElem_range, List.length_take,
      List.length_drop]
    omega
  · intro j hj
    have hjP : j / L < (arranged.length + L - 1) / L := by
      by_contra hcon
      have hle : (arranged.length + L - 1) / L ≤ j / L := not_lt.mp hcon
      have h1 : (arranged.length + L - 1) / L * L ≤ j / L * L := Nat.mul_le_mul_right L hle
      have h2 : j / L * L ≤ j := Nat.div_mul_le_self j L
      omega
    refine ⟨by simpa using hjP, ?_⟩
    have hmod : j % L < L := Nat.mod_lt j hL
    have hsplit : j / L * L + j % L = j := by
      rw [Nat.mul_comm]
      exact Nat.div_add_mod j L
    simp only [List.get_eq_getElem, List.getElem_map, List.getElem_range]
    rw [List.getElem?_take_of_lt hmod, List.getElem?_drop, hsplit]
  · intro offset hoff hprod
    have hlenP : ((List.range ((arranged.length + L - 1) / L)).map
        (fun i => (arranged.drop (i * L)).take L)).length = (arranged.length + L - 1) / L := by
      simp
    rw [hlenP] at hoff
    have h0 : 0 ≤ offset := le_trans (Int.natCast_nonneg _) hoff
    apply page_beyond_end arranged offset L h0 hpos.le hprod
    have h1 : (((arranged.length + L - 1) / L : Nat) : Int) * (L : Int) ≤ offset * (L : Int) :=
      mul_le_mul_of_nonneg_right hoff hpos.le
    have h2 : ((arranged.length : Nat) : Int) ≤
        (((arranged.length + L - 1) / L * L : Nat) : Int) := by exact_mod_cast hcover
    rw [Nat.cast_mul] at h2
    omega

/-- The two pages of size 2 of `pagedStore`, newest record first. -/
theorem pagedStore_pages :
    pagedStore.GetNamespaces ∅ 0 2 =
      some ([{ Name := "b", Token := "tb", Owner := "teamB", Valid := true, ModifyTime := 30 },
             { Name := "c", Token := "tc", Owner := "teamC", Valid := true, ModifyTime := 20 }],
            0, none) ∧
    pagedStore.GetNamespaces ∅ 1 2 =
      some ([{ Name := "a", Token := "ta", Owner := "teamA", Valid := true, ModifyTime := 10 }],
            0, none) ∧
    pagedStore.GetNamespaces ∅ 2 2 = some ([], 0, none) := by
  refine ⟨by decide, by decide, by decide⟩

/-- The pages of size 2 cut from `tiedArrangement`, and a far page whose product
`(2^63 - 1) * 1` does not wrap although the sum with `limit` would. -/
theorem tiedArrangement_pages :
    GetNamespaces.page tiedArrangement 0 2 = some (tiedArrangement.take 2, 0, none) ∧
    GetNamespaces.page tiedArrangement 1 2 = some (tiedArrangement.drop 2, 0, none) ∧
    GetNamespaces.page tiedArrangement 2 2 = some ([], 0, none) ∧
    GetNamespaces.page tiedArrangement 1 (2 ^ 63 - 1) = some ([], 0, none) := by
  refine ⟨by decide, by decide, by decide, by decide⟩

/-- C19 at `tiedArrangement` (three records, the first two tied) with pages of size 2. -/
theorem GetNamespaces_pages_partition_witness :
    (0 : Int) < 2 ∧ (2 : Int) < 2 ^ 63 ∧ tiedArrangement.length < 2 ^ 62 ∧
    (∃ pages : List (List Namespace),
      pages.length = (tiedArrangement.length + (2 : Int).toNat - 1) / (2 : Int).toNat ∧
      (∀ (i : Nat) (hi : i < pages.length),
        GetNamespaces.page tiedArrangement (i : Int) 2 = some (pages.get ⟨i, hi⟩, 0, none)) ∧
      pages.flatten = tiedArrangement ∧
      (∀ (i : Nat) (hi : i < pages.length), i + 1 < pages.length →
        (pages.get ⟨i, hi⟩).length = (2 : Int).toNat) ∧
      (∀ j, j < tiedArrangement.length →
        ∃ hi : j / (2 : Int).toNat < pages.length,
          (pages.get ⟨j / (2 : Int).toNat, hi⟩)[j % (2 : Int).toNat]? = tiedArrangement[j]?) ∧
      (∀ offset : Int, (pages.length : Int) ≤ offset → offset * 2 < 2 ^ 63 →
        GetNamespaces.page tiedArrangement offset 2 = some ([], 0, none))) ∧
    (∀ (n : namespaceStore) (filter : AList (fun _ : String => List String)) (offset : Int),
      n.handler.fault = none →
      sort.Sort (sort.Reverse NamespaceSlice.Less)
        (toNamespaces (n.handler.tables tblNameNamespace)) = tiedArrangement →
      n.GetNamespaces filter offset 2 = GetNamespaces.page tiedArrangement offset 2) :=
  ⟨by decide, by decide, by decide,
    GetNamespaces_pages_partition tiedArrangement 2 (by decide) (by decide) (by decide)⟩

/-- C19 as stated fails once `offset*limit` wraps around: the arrangement
`[sampleRecord]` has one record, so with `limit = 2^31` there is
`⌈1 / 2^31⌉ = 1` page; `offset = 2^33` is beyond it and its page should be
empty, but `2^33 * 2^31 = 2^64` is 0 as an `int` and the page cut from the
arrangement holds the record, which is also what the call on `sampleStore`
returns. -/
theorem GetNamespaces_far_page_wraps :
    (0 : Int) < 2 ^ 31 ∧
    (sampleStore.handler.tables tblNameNamespace).entries.length = 1 ∧
    (1 + (2 ^ 31 : Int).toNat - 1) / (2 ^ 31 : Int).toNat = 1 ∧
    (1 : Int) ≤ 2 ^ 33 ∧
    sampleStore.GetNamespaces ∅ (2 ^ 33) (2 ^ 31) = some ([sampleRecord], 0, none) ∧
    GetNamespaces.page [sampleRecord] (2 ^ 33) (2 ^ 31) = some ([sampleRecord], 0, none) := by
  refine ⟨by decide, by decide, by decide, by decide, by decide, by decide⟩

end BoltdbStore
